import Mathlib

/-
  Verification development for the SecondMind local research assistant
  (single-file Flask backend: a 7-stage LLM pipeline with an SQLite
  task-keyed cache, a regex text normalizer, an LLM client and a web
  search client).

  Strings are modelled as `List Char`.  The regex substitutions of
  `clean_headings` are modelled as deterministic left-to-right scanners
  (all patterns involved are backtracking-free: every `\s*` is followed
  by a non-whitespace literal or ends the pattern, so maximal munch is
  exact).  Scanners take explicit fuel (always called with the input
  length) so that all definitions are structurally recursive and reduce
  in the kernel.
-/

namespace SMind

abbrev Str := List Char

/-- Python whitespace (`str.strip` / `re` class `\s`), restricted to the
code points that occur in practice: HT..CR, FS..US, space, NEL, NBSP.
(Further Unicode space characters behave identically and are omitted.) -/
def pyIsSpace (c : Char) : Bool :=
  c == ' ' || c == '\t' || c == '\n' ||
  (11 ≤ c.toNat && c.toNat ≤ 13) || (28 ≤ c.toNat && c.toNat ≤ 31) ||
  c.toNat == 0x85 || c.toNat == 0xa0

/-- ASCII lower-casing, as used by `re.IGNORECASE` on the ASCII pattern
letters occurring in the source. -/
def pyLower (c : Char) : Char :=
  if 'A' ≤ c && c ≤ 'Z' then Char.ofNat (c.toNat + 32) else c

/-- `str.strip()`: drop leading and trailing whitespace. -/
def pyStrip (s : Str) : Str :=
  ((s.dropWhile pyIsSpace).reverse.dropWhile pyIsSpace).reverse

/-- Python `text.split("\n")`: split at every newline, keeping empty
pieces; the result is always non-empty. -/
def pySplitNL : Str → List Str
  | [] => [[]]
  | c :: cs =>
    if c == '\n' then [] :: pySplitNL cs
    else
      match pySplitNL cs with
      | [] => [[c]]
      | h :: t => (c :: h) :: t

/-- Case-insensitive match of a (lower-case) literal pattern against the
head of the input; returns the remainder on success. -/
def matchCI : Str → Str → Option Str
  | [], s => some s
  | _ :: _, [] => none
  | k :: ks, c :: cs => if pyLower c == k then matchCI ks cs else none

/-- Was the last character of the whitespace run at the head of `s` a
newline?  (Used to decide whether the position after a match is a
line start.) -/
def wsEndsNL (s : Str) : Bool :=
  match (s.takeWhile pyIsSpace).getLast? with
  | some c => c == '\n'
  | none => false

def phraseLit : Str := ("multiple perspectives").toList

/-- Match one of the removal patterns
`\*\*\s*Multiple Perspectives\s*:\s*`, `\*\s*Multiple Perspectives\s*:\s*`
or `Multiple Perspectives\s*:\s*` (case-insensitive) at the head of the
input; `pre` is the literal asterisk prefix (`none` for the plain
pattern, which starts directly at the phrase).  Returns the remainder. -/
def tryPhrase (pre : Option Str) (s : Str) : Option Str :=
  let s1 :=
    match pre with
    | none => some s
    | some p => (matchCI p s).map (fun r => r.dropWhile pyIsSpace)
  match s1 with
  | none => none
  | some s2 =>
    match matchCI phraseLit s2 with
    | none => none
    | some s3 =>
      match s3.dropWhile pyIsSpace with
      | [] => none
      | c :: s4 => if c == ':' then some (s4.dropWhile pyIsSpace) else none

/-- One `re.sub(pattern, "", text)` pass for a removal pattern:
left-to-right scan, deleting each match and continuing after it. -/
def subPhraseF (pre : Option Str) : Nat → Str → Str
  | 0, s => s
  | _ + 1, [] => []
  | fuel + 1, c :: cs =>
    match tryPhrase pre (c :: cs) with
    | some rest => subPhraseF pre fuel rest
    | none => c :: subPhraseF pre fuel cs

def subPhrase (pre : Option Str) (s : Str) : Str := subPhraseF pre s.length s

/-- Match the line-anchored heading pattern `^\s*key\s*:\s*` at the
current position (the `^` itself is handled by the caller).  Returns the
remainder together with the flag "the last consumed character was a
newline" (i.e. whether the continuation position is again a line start). -/
def tryHead (key : Str) (s : Str) : Option (Str × Bool) :=
  match matchCI key (s.dropWhile pyIsSpace) with
  | none => none
  | some s2 =>
    match s2.dropWhile pyIsSpace with
    | [] => none
    | c :: s4 =>
      if c == ':' then some (s4.dropWhile pyIsSpace, wsEndsNL s4) else none

/-- One `re.sub(r"(?mi)^\s*key\s*:\s*", rep, text)` pass.  `atLS` tracks
whether the current position is a line start (string start or preceded
by a newline in the original text). -/
def subHeadF (key rep : Str) : Nat → Bool → Str → Str
  | 0, _, s => s
  | _ + 1, _, [] => []
  | fuel + 1, atLS, c :: cs =>
    if atLS then
      match tryHead key (c :: cs) with
      | some (rest, nl) => rep ++ subHeadF key rep fuel nl rest
      | none => c :: subHeadF key rep fuel (c == '\n') cs
    else c :: subHeadF key rep fuel (c == '\n') cs

def subHead (key rep : Str) (s : Str) : Str := subHeadF key rep s.length true s

/-- The eight heading keywords with their canonical replacements
`"Proper: "`, in the normalization map's iteration order. -/
def headKeys : List (Str × Str) :=
  [(("analysis").toList, ("Analysis: ").toList),
   (("summary").toList, ("Summary: ").toList),
   (("conclusion").toList, ("Conclusion: ").toList),
   (("evaluation").toList, ("Evaluation: ").toList),
   (("reasoning").toList, ("Reasoning: ").toList),
   (("hypotheses").toList, ("Hypotheses: ").toList),
   (("key insights").toList, ("Key Insights: ").toList),
   (("recommendation").toList, ("Recommendation: ").toList)]

/-- `clean_headings` from the source: remove the three
"Multiple Perspectives:" patterns, strip all asterisks, normalize the
eight headings, then strip surrounding whitespace. -/
def clean_headings (s : Str) : Str :=
  let t1 := subPhrase (some (("**").toList)) s
  let t2 := subPhrase (some (("*").toList)) t1
  let t3 := subPhrase none t2
  let t4 := t3.filter (fun c => c != '*')
  let t5 := headKeys.foldl (fun acc kr => subHead kr.1 kr.2 acc) t4
  pyStrip t5

/-- Canonical-form checker mirroring the heading scanner `subHeadF`:
every line-start match of the heading pattern must already read back as
the replacement itself (or, at the very end of the text, as the
replacement without its trailing space). -/
def canonF (key rep : Str) : Nat → Bool → Str → Bool
  | 0, _, _ => true
  | _ + 1, _, [] => true
  | fuel + 1, atLS, c :: cs =>
    if atLS then
      match tryHead key (c :: cs) with
      | some (rest, nl) =>
        ((c :: cs == rep ++ rest) ||
          (rest.isEmpty && (c :: cs == rep.dropLast))) &&
        canonF key rep fuel nl rest
      | none => canonF key rep fuel (c == '\n') cs
    else canonF key rep fuel (c == '\n') cs

/-- A string is canonical for a heading pattern when every line-start
match is already in replaced form. -/
def canon (key rep s : Str) : Bool := canonF key rep s.length true s

/-- The string is empty or does not end in (Python) whitespace. -/
def noTrailWS (s : Str) : Prop := ∀ c ∈ s.getLast?, pyIsSpace c = false

/-- Specification-side single-line heading match, written from the
specification words: a line that begins, after optional whitespace,
with the keyword (case-insensitive) followed by a colon with flexible
whitespace around it.  Returns the line content after the match. -/
def lineMatch (key line : Str) : Option Str :=
  match matchCI key (line.dropWhile pyIsSpace) with
  | none => none
  | some s2 =>
    match s2.dropWhile pyIsSpace with
    | [] => none
    | c :: s4 => if c == ':' then some (s4.dropWhile pyIsSpace) else none

/-- Specification-side per-line rewriter: a matching line becomes the
canonical replacement followed by the line remainder; any other line is
left unmodified. -/
def lineRewrite (key rep line : Str) : Str :=
  match lineMatch key line with
  | some rest => rep ++ rest
  | none => line

/-- Join lines with newlines (left inverse of `pySplitNL`). -/
def joinNL : List Str → Str
  | [] => []
  | [l] => l
  | l :: ls => l ++ '\n' :: joinNL ls

/-- Specification-side heading normalization, following the spec words:
the rewrite is anchored per line and applied to every line. -/
def specHeading (key rep s : Str) : Str :=
  joinNL ((pySplitNL s).map (lineRewrite key rep))

/-- Tameness of one heading pass on an input: no match's consumed span
(the flexible whitespace runs around keyword and colon) crosses a
newline.  Under this condition the pass is exactly line-by-line; the
counterexample to the original claim violates it. -/
def tameF (key : Str) : Nat → Bool → Str → Bool
  | 0, _, _ => true
  | _ + 1, _, [] => true
  | fuel + 1, atLS, c :: cs =>
    if atLS then
      match tryHead key (c :: cs) with
      | some (rest, nl) =>
        (((c :: cs).take ((c :: cs).length - rest.length)).all
            (fun d => !(d == '\n'))) &&
          tameF key fuel nl rest
      | none => tameF key fuel (c == '\n') cs
    else tameF key fuel (c == '\n') cs

def tame (key s : Str) : Bool := tameF key s.length true s

/-! ## JSON values

JSON as delivered by `response.json()` / stored by `json.dumps` /
re-read by `json.loads`.  Numbers are modelled lexically (the literal
character run), which sidesteps the numeric interpretation (floats are
out of scope) while keeping serialization exact.  Arrays and objects
use a mutual inductive so that all recursions stay structural. -/

mutual
inductive JVal : Type where
  | null : JVal
  | bool : Bool → JVal
  | num : Str → JVal
  | str : Str → JVal
  | arr : JArr → JVal
  | obj : JObj → JVal
deriving DecidableEq
inductive JArr : Type where
  | nil : JArr
  | cons : JVal → JArr → JArr
deriving DecidableEq
inductive JObj : Type where
  | nil : JObj
  | cons : Str → JVal → JObj → JObj
deriving DecidableEq
end

def JArr.toList : JArr → List JVal
  | .nil => []
  | .cons v rest => v :: JArr.toList rest

def JArr.ofList : List JVal → JArr
  | [] => .nil
  | v :: rest => .cons v (JArr.ofList rest)

def JArr.take : Nat → JArr → JArr
  | 0, _ => .nil
  | _, .nil => .nil
  | n + 1, .cons v rest => .cons v (JArr.take n rest)

/-- Python `dict` lookup on a JSON object: with duplicate keys the last
occurrence wins (as in `json.loads`). -/
def JObj.lookupLast : JObj → Str → Option JVal
  | .nil, _ => none
  | .cons k v rest, key =>
    match JObj.lookupLast rest key with
    | some w => some w
    | none => if k == key then some v else none

def JObj.hasKey (o : JObj) (key : Str) : Bool :=
  (JObj.lookupLast o key).isSome

/-- `json.dumps` string escaping (the escapes that occur for the
character set in scope). -/
def escChar (c : Char) : Str :=
  if c == '"' then ['\\', '"']
  else if c == '\\' then ['\\', '\\']
  else if c == '\n' then ['\\', 'n']
  else if c == '\r' then ['\\', 'r']
  else if c == '\t' then ['\\', 't']
  else [c]

def escStr (s : Str) : Str := s.flatMap escChar

mutual
/-- `json.dumps` with its default separators. -/
def dumpsV : JVal → Str
  | .null => ("null").toList
  | .bool true => ("true").toList
  | .bool false => ("false").toList
  | .num l => l
  | .str s => '"' :: (escStr s ++ ['"'])
  | .arr a => '[' :: (dumpsArr a ++ [']'])
  | .obj o => '{' :: (dumpsObj o ++ ['}'])
def dumpsArr : JArr → Str
  | .nil => []
  | .cons v .nil => dumpsV v
  | .cons v (.cons w rest) => dumpsV v ++ ',' :: ' ' :: dumpsArr (.cons w rest)
def dumpsObj : JObj → Str
  | .nil => []
  | .cons k v .nil => '"' :: (escStr k ++ '"' :: ':' :: ' ' :: dumpsV v)
  | .cons k v (.cons k2 w rest) =>
    ('"' :: (escStr k ++ '"' :: ':' :: ' ' :: dumpsV v)) ++
      ',' :: ' ' :: dumpsObj (.cons k2 w rest)
end

def isNumChar (c : Char) : Bool :=
  c == '-' || c == '+' || c == '.' || c == 'e' || c == 'E' ||
  ('0' ≤ c && c ≤ '9')

/-- Parse a JSON string body (after the opening quote) up to the closing
quote, undoing `escChar`. -/
def parseStr : Nat → Str → Option (Str × Str)
  | 0, _ => none
  | _ + 1, [] => none
  | fuel + 1, c :: rest =>
    if c == '"' then some ([], rest)
    else if c == '\\' then
      match rest with
      | [] => none
      | d :: rest2 =>
        let dec := if d == 'n' then '\n' else if d == 'r' then '\r'
                   else if d == 't' then '\t' else d
        match parseStr fuel rest2 with
        | some (s, r) => some (dec :: s, r)
        | none => none
    else
      match parseStr fuel rest with
      | some (s, r) => some (c :: s, r)
      | none => none

mutual
/-- Recursive-descent parser for the exact `dumpsV` output format
(`json.loads` restricted to the serializer's images, which is all the
stored column ever contains). -/
def parseVal : Nat → Str → Option (JVal × Str)
  | 0, _ => none
  | _ + 1, [] => none
  | fuel + 1, c :: rest =>
    if c == '"' then (parseStr fuel rest).map (fun p => (.str p.1, p.2))
    else if c == '[' then
      if rest.head? == some ']' then some (.arr .nil, rest.tail)
      else (parseArrElems fuel rest).map (fun p => (.arr p.1, p.2))
    else if c == '{' then
      if rest.head? == some '}' then some (.obj .nil, rest.tail)
      else (parseObjElems fuel rest).map (fun p => (.obj p.1, p.2))
    else if c == 'n' then
      match rest with
      | 'u' :: 'l' :: 'l' :: r2 => some (.null, r2)
      | _ => none
    else if c == 't' then
      match rest with
      | 'r' :: 'u' :: 'e' :: r2 => some (.bool true, r2)
      | _ => none
    else if c == 'f' then
      match rest with
      | 'a' :: 'l' :: 's' :: 'e' :: r2 => some (.bool false, r2)
      | _ => none
    else if isNumChar c then
      some (.num (c :: rest.takeWhile isNumChar), rest.dropWhile isNumChar)
    else none
def parseArrElems : Nat → Str → Option (JArr × Str)
  | 0, _ => none
  | fuel + 1, s =>
    match parseVal fuel s with
    | none => none
    | some (v, r) =>
      match r with
      | ']' :: r2 => some (.cons v .nil, r2)
      | ',' :: ' ' :: r2 =>
        (parseArrElems fuel r2).map (fun p => (.cons v p.1, p.2))
      | _ => none
def parseObjElems : Nat → Str → Option (JObj × Str)
  | 0, _ => none
  | fuel + 1, s =>
    match s with
    | '"' :: s1 =>
      match parseStr fuel s1 with
      | some (k, ':' :: ' ' :: s2) =>
        match parseVal fuel s2 with
        | some (v, '}' :: r2) => some (.cons k v .nil, r2)
        | some (v, ',' :: ' ' :: r2) =>
          (parseObjElems fuel r2).map (fun p => (.cons k v p.1, p.2))
        | _ => none
      | _ => none
    | _ => none
end

/-- `json.loads` on a stored column value (total: stored values are
always serializer images; elsewhere `json.loads` would raise). -/
def json_loads (s : Str) : JVal :=
  match parseVal (2 * s.length + 1) s with
  | some (v, []) => v
  | _ => JVal.null

-- Well-formedness of a JSON value: numeric literals are non-empty runs
-- of numeric characters (always true of parsed values).
mutual
def JVal.wf : JVal → Bool
  | .null => true
  | .bool _ => true
  | .num l => !l.isEmpty && l.all isNumChar
  | .str _ => true
  | .arr a => JArr.wf a
  | .obj o => JObj.wf o
def JArr.wf : JArr → Bool
  | .nil => true
  | .cons v rest => JVal.wf v && JArr.wf rest
def JObj.wf : JObj → Bool
  | .nil => true
  | .cons _ v rest => JVal.wf v && JObj.wf rest
end

/-! ## Python-level operations on JSON values, with exceptions -/

inductive PyErr : Type where
  | typeError (msg : Str)
  | attributeError (msg : Str)
deriving DecidableEq

/-- Python substring test `key in s`. -/
def strContains : Str → Str → Bool
  | hay, needle =>
    match hay with
    | [] => needle.isEmpty
    | _ :: t => needle.isPrefixOf hay || strContains t needle

/-- Python `key in results` on a parsed JSON value: key membership for
dicts, element equality for lists, substring for strings, `TypeError`
for the remaining types. -/
def jContains (v : JVal) (key : Str) : Except PyErr Bool :=
  match v with
  | .obj o => .ok (o.hasKey key)
  | .arr a => .ok (a.toList.any (fun e =>
      match e with
      | .str s => s == key
      | _ => false))
  | .str s => .ok (strContains s key)
  | _ => .error (.typeError (("argument not iterable").toList))

/-- Python `v.get(key, default)`: only dicts have `.get`. -/
def jGet (v : JVal) (key : Str) (dflt : JVal) : Except PyErr JVal :=
  match v with
  | .obj o =>
    match o.lookupLast key with
    | some w => .ok w
    | none => .ok dflt
  | _ => .error (.attributeError (("object has no attribute get").toList))

/-- Python `v[:5]` followed by iteration: lists slice to their first
five elements, strings to their first five characters (iterated as
one-character strings); other types raise `TypeError`. -/
def jSlice5Iter (v : JVal) : Except PyErr (List JVal) :=
  match v with
  | .arr a => .ok (JArr.take 5 a).toList
  | .str s => .ok ((s.take 5).map (fun c => JVal.str [c]))
  | _ => .error (.typeError (("object is not subscriptable").toList))

/-! ## Web search client (`fetch_web_results`) -/

/-- One entry of the formatted search results: the values of the
`title` / `link` / `snippet` keys as taken from the provider JSON. -/
structure RawResult where
  title : JVal
  link : JVal
  snippet : JVal
deriving DecidableEq

def noTitle : JVal := .str (("No Title").toList)
def noLink : JVal := .str (("No Link").toList)
def noSnippet : JVal := .str (("No Description Available").toList)

def orKey : Str := ("organic_results").toList

def itemsToResults : List JVal → Except PyErr (List RawResult)
  | [] => .ok []
  | item :: rest =>
    match jGet item (("title").toList) noTitle with
    | .error e => .error e
    | .ok t =>
      match jGet item (("link").toList) noLink with
      | .error e => .error e
      | .ok l =>
        match jGet item (("snippet").toList) noSnippet with
        | .error e => .error e
        | .ok sn =>
          match itemsToResults rest with
          | .error e => .error e
          | .ok rs => .ok (⟨t, l, sn⟩ :: rs)

/-- `fetch_web_results`: the provider interaction is abstracted as the
outcome of `requests.get` + `raise_for_status` + `response.json()` —
either a `RequestException` description (network/HTTP/JSON-decode
failure, caught by the code) or the parsed JSON body. -/
def fetch_web_results (resp : Except Str JVal) : Except PyErr (List RawResult) :=
  match resp with
  | .error _ => .ok []
  | .ok results =>
    match jContains results orKey with
    | .error e => .error e
    | .ok false => .ok []
    | .ok true =>
      match jGet results orKey (JVal.arr .nil) with
      | .error e => .error e
      | .ok got =>
        match jSlice5Iter got with
        | .error e => .error e
        | .ok items => itemsToResults items

/-! ## LLM client (`fetch_ai_response`) -/

def aiFailPrefix : Str := ("AI Request failed: ").toList

def hfTokenMissingMsg : Str :=
  aiFailPrefix ++ ("HF_TOKEN is not set in environment variables").toList

/-- `fetch_ai_response`: `hfToken` is the `HF_TOKEN` environment value
(`none` when unset; the code treats the empty string the same way, via
Python falsiness).  `net` is the chat-completion transport: the raw
response text or the description of the raised transport error.  The
second component counts network calls attempted. -/
def fetch_ai_response (hfToken : Option Str) (net : Str → Except Str Str)
    (prompt : Str) : Str × Nat :=
  match hfToken with
  | none => (hfTokenMissingMsg, 0)
  | some tok =>
    if tok.isEmpty then (hfTokenMissingMsg, 0)
    else
      match net prompt with
      | .ok raw => (clean_headings raw, 1)
      | .error e => (aiFailPrefix ++ e, 1)

/-! ## Research cache (SQLite table `research_data`) -/

structure DbRow where
  id : Nat
  task : Str
  hypotheses : Str
  web_research : Str
  analysis : Str
  reasoning : Str
  evaluation : Str
  summary : Str
  conclusion : Str
deriving DecidableEq

structure Db where
  rows : List DbRow
  nextId : Nat
deriving DecidableEq

/-- `init_db`: fresh empty table (`id` autoincrement starts at 1). -/
def init_db : Db := ⟨[], 1⟩

def RawResult.toObj (r : RawResult) : JVal :=
  .obj (.cons (("title").toList) r.title
    (.cons (("link").toList) r.link
      (.cons (("snippet").toList) r.snippet .nil)))

/-- The `web_results` list as the JSON value `json.dumps` receives. -/
def webToJ (web : List RawResult) : JVal :=
  .arr (JArr.ofList (web.map RawResult.toObj))

/-- The `DO UPDATE` arm of the upsert: replace all non-key fields of
the row holding `task`, leave other rows unchanged. -/
def updRow (task hyp : Str) (web : List RawResult)
    (ana rea eva summ conc : Str) (r : DbRow) : DbRow :=
  if r.task == task then
    { r with hypotheses := hyp, web_research := dumpsV (webToJ web),
             analysis := ana, reasoning := rea, evaluation := eva,
             summary := summ, conclusion := conc }
  else r

/-- `store_in_db`: `INSERT ... ON CONFLICT(task) DO UPDATE` — insert a
new row, or replace every non-key field of the row holding `task`. -/
def store_in_db (db : Db) (task hyp : Str) (web : List RawResult)
    (ana rea eva summ conc : Str) : Db :=
  if db.rows.any (fun r => r.task == task) then
    { db with rows := db.rows.map (updRow task hyp web ana rea eva summ conc) }
  else
    { rows := db.rows ++ [⟨db.nextId, task, hyp, dumpsV (webToJ web),
                           ana, rea, eva, summ, conc⟩],
      nextId := db.nextId + 1 }

/-- The structured 200-response of `/supervisor` (the JSON body):
each text field split at newlines, web research as a JSON value. -/
structure FormattedResp where
  task : Str
  hypotheses : List Str
  web : JVal
  analysis : List Str
  reasoning : List Str
  evaluation : List Str
  summary : List Str
  conclusion : List Str
deriving DecidableEq

/-- `get_from_db`: exact-match lookup, formatting the stored row
(text fields split at newlines, `json.loads` on the stored JSON). -/
def get_from_db (db : Db) (task : Str) : Option FormattedResp :=
  match db.rows.find? (fun r => r.task == task) with
  | none => none
  | some r =>
    some ⟨r.task, pySplitNL r.hypotheses, json_loads r.web_research,
          pySplitNL r.analysis, pySplitNL r.reasoning,
          pySplitNL r.evaluation, pySplitNL r.summary,
          pySplitNL r.conclusion⟩

/-! ## Prompt construction

The analysis prompt interpolates `{web_results}` in an f-string, i.e.
Python `str()` of a list of dicts, which is its `repr`. -/

def pyReprEsc (q : Char) (c : Char) : Str :=
  if c == '\\' then ['\\', '\\']
  else if c == q then ['\\', q]
  else if c == '\n' then ['\\', 'n']
  else if c == '\r' then ['\\', 'r']
  else if c == '\t' then ['\\', 't']
  else [c]

/-- Python `repr` of a string: single quotes, switching to double quotes
when the string contains a single quote but no double quote. -/
def pyReprStr (s : Str) : Str :=
  let sq : Char := Char.ofNat 39
  let q := if s.contains sq && !(s.contains '"') then '"' else sq
  q :: (s.flatMap (pyReprEsc q) ++ [q])

mutual
def pyReprV : JVal → Str
  | .null => ("None").toList
  | .bool true => ("True").toList
  | .bool false => ("False").toList
  | .num l => l
  | .str s => pyReprStr s
  | .arr a => '[' :: (pyReprArr a ++ [']'])
  | .obj o => '{' :: (pyReprObj o ++ ['}'])
def pyReprArr : JArr → Str
  | .nil => []
  | .cons v .nil => pyReprV v
  | .cons v (.cons w rest) => pyReprV v ++ ',' :: ' ' :: pyReprArr (.cons w rest)
def pyReprObj : JObj → Str
  | .nil => []
  | .cons k v .nil => pyReprStr k ++ ':' :: ' ' :: pyReprV v
  | .cons k v (.cons k2 w rest) =>
    (pyReprStr k ++ ':' :: ' ' :: pyReprV v) ++ ',' :: ' ' :: pyReprObj (.cons k2 w rest)
end

def pyReprWeb (web : List RawResult) : Str := pyReprV (webToJ web)

def hypothesisPrompt (task : Str) : Str :=
  ("Generate possible hypotheses based on: ").toList ++ task

def analysisPrompt (hyp : Str) (web : List RawResult) : Str :=
  ("Analyze the following hypotheses and web research:\nHypotheses:\n").toList
    ++ hyp ++ ("\n\nWeb Research:\n").toList ++ pyReprWeb web

def reasoningPrompt (ana : Str) : Str :=
  ("Provide logical reasoning based on this analysis:\n").toList ++ ana

def evaluationPrompt (rea : Str) : Str :=
  ("Evaluate different perspectives based on the reasoning:\n").toList ++ rea

def summaryPrompt (eva : Str) : Str :=
  ("Summarize key insights from evaluation:\n").toList ++ eva

def conclusionPrompt (summ : Str) : Str :=
  ("Based on the summary, provide a structured conclusion:\n").toList ++ summ

/-! ## The `/supervisor` handler -/

/-- Python dict lookup with default (`data.get("task", "")`). -/
def bodyGet (body : List (Str × JVal)) (key : Str) (dflt : JVal) : JVal :=
  match body.reverse.find? (fun p => p.1 == key) with
  | some p => p.2
  | none => dflt

/-- `.strip()` on a request-body value: only strings have `.strip`. -/
def pyStripJ : JVal → Except PyErr Str
  | .str s => .ok (pyStrip s)
  | _ => .error (.attributeError (("object has no attribute strip").toList))

inductive RespBody : Type where
  | err (msg : Str)
  | ok (r : FormattedResp)
deriving DecidableEq

/-- The observable outcome of one `/supervisor` request: the HTTP
result (or the unhandled Python exception), the database afterwards,
and the traces of cache lookups, LLM-client invocations (their prompts)
and web-search invocations (their queries). -/
structure RunResult where
  outcome : Except PyErr (Nat × RespBody)
  db : Db
  dbReads : List Str
  llmCalls : List Str
  webCalls : List Str

def missingTaskMsg : Str := ("Missing task parameter").toList

def formatResp (task hyp : Str) (web : List RawResult)
    (ana rea eva summ conc : Str) : FormattedResp :=
  ⟨task, pySplitNL hyp, webToJ web, pySplitNL ana, pySplitNL rea,
   pySplitNL eva, pySplitNL summ, pySplitNL conc⟩

def taskKey : Str := ("task").toList

/-- `supervisor_agent`: validate the task, consult the cache, otherwise
run the seven-stage pipeline and persist.  `hfToken`/`llmNet` feed
`fetch_ai_response`; `webNet` is the search transport feeding
`fetch_web_results`; `body` is the parsed JSON request body. -/
def supervisor_agent (hfToken : Option Str) (llmNet : Str → Except Str Str)
    (webNet : Str → Except Str JVal) (db : Db)
    (body : List (Str × JVal)) : RunResult :=
  match pyStripJ (bodyGet body taskKey (JVal.str [])) with
  | .error e => ⟨.error e, db, [], [], []⟩
  | .ok task =>
    if task.isEmpty then ⟨.ok (400, .err missingTaskMsg), db, [], [], []⟩
    else
      match get_from_db db task with
      | some stored => ⟨.ok (200, .ok stored), db, [task], [], []⟩
      | none =>
        let p1 := hypothesisPrompt task
        let hyp := (fetch_ai_response hfToken llmNet p1).1
        match fetch_web_results (webNet task) with
        | .error e => ⟨.error e, db, [task], [p1], [task]⟩
        | .ok web =>
          let p2 := analysisPrompt hyp web
          let ana := (fetch_ai_response hfToken llmNet p2).1
          let p3 := reasoningPrompt ana
          let rea := (fetch_ai_response hfToken llmNet p3).1
          let p4 := evaluationPrompt rea
          let eva := (fetch_ai_response hfToken llmNet p4).1
          let p5 := summaryPrompt eva
          let summ := (fetch_ai_response hfToken llmNet p5).1
          let p6 := conclusionPrompt summ
          let conc := (fetch_ai_response hfToken llmNet p6).1
          ⟨.ok (200, .ok (formatResp task hyp web ana rea eva summ conc)),
           store_in_db db task hyp web ana rea eva summ conc,
           [task], [p1, p2, p3, p4, p5, p6], [task]⟩

/-- The six LLM stage outputs of a cache-miss run (the handler's
`let`-chain, lines 233-265 of the source), with the prompts issued. -/
structure StageOutputs where
  hyp : Str
  ana : Str
  rea : Str
  eva : Str
  summ : Str
  conc : Str
  prompts : List Str

def runStages (hf : Option Str) (llm : Str → Except Str Str)
    (task : Str) (web : List RawResult) : StageOutputs :=
  let p1 := hypothesisPrompt task
  let hyp := (fetch_ai_response hf llm p1).1
  let p2 := analysisPrompt hyp web
  let ana := (fetch_ai_response hf llm p2).1
  let p3 := reasoningPrompt ana
  let rea := (fetch_ai_response hf llm p3).1
  let p4 := evaluationPrompt rea
  let eva := (fetch_ai_response hf llm p4).1
  let p5 := summaryPrompt eva
  let summ := (fetch_ai_response hf llm p5).1
  let p6 := conclusionPrompt summ
  let conc := (fetch_ai_response hf llm p6).1
  ⟨hyp, ana, rea, eva, summ, conc, [p1, p2, p3, p4, p5, p6]⟩

/-- Well-formedness of the search results' JSON values. -/
def webWf (web : List RawResult) : Bool :=
  web.all (fun r => JVal.wf r.title && JVal.wf r.link && JVal.wf r.snippet)

/-! ## Serializer/parser round trip -/

/-- The continuation after a serialized value never starts with a
numeric character (it is `,`/`]`/`}` or empty). -/
def headNotNum : Str → Bool
  | [] => true
  | c :: _ => !isNumChar c

/-- An LLM transport whose every request fails. -/
def llmErrC : Str → Except Str Str := fun _ => .error (("e").toList)

/-- A search transport whose every request fails (RequestException). -/
def webErrC : Str → Except Str JVal := fun _ => .error (("e").toList)

/-- A search transport returning a JSON object with no results field. -/
def webEmptyC : Str → Except Str JVal := fun _ => .ok (.obj .nil)

/-- A search transport returning a 200 JSON body whose
`organic_results` is `null` — well-formed JSON the code cannot slice. -/
def webBadC : Str → Except Str JVal :=
  fun _ => .ok (.obj (.cons orKey .null .nil))

def isObjB : JVal → Bool
  | .obj _ => true
  | _ => false

/-- The mapping applied to one provider entry: take the `title` /
`link` / `snippet` values, substituting the literal defaults for
missing keys.  (Only applied to object entries.) -/
def itemToResult : JVal → RawResult
  | .obj io => ⟨(io.lookupLast (("title").toList)).getD noTitle,
                (io.lookupLast (("link").toList)).getD noLink,
                (io.lookupLast (("snippet").toList)).getD noSnippet⟩
  | _ => ⟨noTitle, noLink, noSnippet⟩

/-- A one-row cache used by the C3 witness. -/
def c3db : Db :=
  ⟨[⟨1, ("x").toList, ("h").toList, ("[]").toList, ("a").toList,
     ("r").toList, ("v").toList, ("s").toList, ("c").toList⟩], 2⟩

/-- The `task TEXT UNIQUE` constraint: no two rows share a task. -/
def Db.uniq (db : Db) : Prop := (db.rows.map DbRow.task).Nodup

/-- Number of rows stored under a given task. -/
def countTask (db : Db) (t : Str) : Nat :=
  (db.rows.filter (fun r => r.task == t)).length

/-- Database states reachable from initialization by cache writes. -/
inductive Reachable : Db → Prop where
  | init : Reachable init_db
  | step (db task hyp web ana rea eva summ conc) : Reachable db →
      Reachable (store_in_db db task hyp web ana rea eva summ conc)

/-- A one-row cache used by the C1 witness. -/
def c1db : Db :=
  ⟨[⟨1, ("x").toList, ("h").toList, ("[]").toList, ("a").toList,
     ("r").toList, ("v").toList, ("s").toList, ("c").toList⟩], 2⟩

theorem parseStr_escape (s : Str) : ∀ fuel rest, (escStr s).length < fuel →
    parseStr fuel (escStr s ++ '"' :: rest) = some (s, rest) := by
  induction s with
  | nil =>
    intro fuel rest h
    cases fuel with
    | zero => omega
    | succ f => simp [escStr, parseStr]
  | cons c tail ih =>
    intro fuel rest h
    have hlen : (escStr (c :: tail)).length = (escChar c).length + (escStr tail).length := by
      simp [escStr]
    have hcl : 1 ≤ (escChar c).length := by
      unfold escChar
      split <;> try simp
      split <;> try simp
      split <;> try simp
      split <;> try simp
      split <;> simp
    cases fuel with
    | zero => omega
    | succ f =>
      have htail : (escStr tail).length < f := by omega
      have hesc : escStr (c :: tail) = escChar c ++ escStr tail := by simp [escStr]
      rw [hesc]
      by_cases h1 : c = '"'
      · subst h1
        simp [escChar, parseStr, ih f rest htail]
      · by_cases h2 : c = '\\'
        · subst h2
          simp [escChar, parseStr, ih f rest htail]
        · by_cases h3 : c = '\n'
          · subst h3
            simp [escChar, parseStr, ih f rest htail]
          · by_cases h4 : c = '\r'
            · subst h4
              simp [escChar, parseStr, ih f rest htail]
            · by_cases h5 : c = '\t'
              · subst h5
                simp [escChar, parseStr, ih f rest htail]
              · have he : escChar c = [c] := by
                  simp [escChar, h1, h2, h3, h4, h5]
                rw [he]
                have hb1 : (c == '"') = false := beq_eq_false_iff_ne.mpr h1
                have hb2 : (c == '\\') = false := beq_eq_false_iff_ne.mpr h2
                simp [parseStr, hb1, hb2, ih f rest htail]

theorem numChar_ne (c d : Char) (hc : isNumChar c = true)
    (hd : isNumChar d = false) : (c == d) = false := by
  cases hq : (c == d)
  · rfl
  · rw [eq_of_beq hq] at hc
    rw [hc] at hd
    cases hd

theorem takeWhile_append_of_all (p : Char → Bool) (l r : Str)
    (hl : l.all p = true) (hr : ∀ c ∈ r.head?, p c = false) :
    (l ++ r).takeWhile p = l ∧ (l ++ r).dropWhile p = r := by
  induction l with
  | nil =>
    simp only [List.nil_append]
    cases r with
    | nil => simp
    | cons c cs =>
      have := hr c rfl
      constructor
      · simp [List.takeWhile_cons, this]
      · simp [List.dropWhile_cons, this]
  | cons x xs ih =>
    rw [List.all_cons, Bool.and_eq_true] at hl
    have := ih hl.2
    constructor
    · rw [List.cons_append, List.takeWhile_cons, hl.1]
      exact congrArg _ this.1
    · rw [List.cons_append, List.dropWhile_cons, hl.1]
      exact this.2

theorem dumpsV_head (v : JVal) (h : JVal.wf v = true) :
    ∃ c cs, dumpsV v = c :: cs ∧ (c == ']') = false ∧ (c == '}') = false := by
  cases v with
  | null => exact ⟨'n', _, rfl, by decide, by decide⟩
  | bool b =>
    cases b with
    | false => exact ⟨'f', _, rfl, by decide, by decide⟩
    | true => exact ⟨'t', _, rfl, by decide, by decide⟩
  | str s => exact ⟨'"', _, rfl, by decide, by decide⟩
  | arr a => exact ⟨'[', _, rfl, by decide, by decide⟩
  | obj o => exact ⟨'{', _, rfl, by decide, by decide⟩
  | num l =>
    rw [JVal.wf, Bool.and_eq_true] at h
    cases l with
    | nil => simp at h
    | cons c cs =>
      rw [List.all_cons, Bool.and_eq_true] at h
      exact ⟨c, cs, rfl, numChar_ne c ']' h.2.1 (by decide),
             numChar_ne c '}' h.2.1 (by decide)⟩

theorem parse_round (fuel : Nat) :
    (∀ v rest, JVal.wf v = true → headNotNum rest = true →
       2 * (dumpsV v).length < fuel →
       parseVal fuel (dumpsV v ++ rest) = some (v, rest)) ∧
    (∀ a rest, JArr.wf a = true → a ≠ .nil →
       2 * (dumpsArr a).length + 1 < fuel →
       parseArrElems fuel (dumpsArr a ++ ']' :: rest) = some (a, rest)) ∧
    (∀ o rest, JObj.wf o = true → o ≠ .nil →
       2 * (dumpsObj o).length + 1 < fuel →
       parseObjElems fuel (dumpsObj o ++ '}' :: rest) = some (o, rest)) := by
  induction fuel with
  | zero =>
    exact ⟨fun v rest _ _ hb => absurd hb (by omega),
           fun a rest _ _ hb => absurd hb (by omega),
           fun o rest _ _ hb => absurd hb (by omega)⟩
  | succ fuel ih =>
    obtain ⟨ihV, ihA, ihO⟩ := ih
    refine ⟨?_, ?_, ?_⟩
    · intro v rest hwf hrest hb
      cases v with
      | null =>
        rw [show dumpsV .null = ['n', 'u', 'l', 'l'] from rfl]
        simp [parseVal]
      | bool b =>
        cases b with
        | true =>
          rw [show dumpsV (.bool true) = ['t', 'r', 'u', 'e'] from rfl]
          simp [parseVal]
        | false =>
          rw [show dumpsV (.bool false) = ['f', 'a', 'l', 's', 'e'] from rfl]
          simp [parseVal]
      | num l =>
        rw [JVal.wf, Bool.and_eq_true] at hwf
        cases l with
        | nil => simp at hwf
        | cons c cs =>
          rw [List.all_cons, Bool.and_eq_true] at hwf
          have hc := hwf.2.1
          have h1 : (c == '"') = false := numChar_ne c '"' hc (by decide)
          have h2 : (c == '[') = false := numChar_ne c '[' hc (by decide)
          have h3 : (c == '{') = false := numChar_ne c '{' hc (by decide)
          have h4 : (c == 'n') = false := numChar_ne c 'n' hc (by decide)
          have h5 : (c == 't') = false := numChar_ne c 't' hc (by decide)
          have h6 : (c == 'f') = false := numChar_ne c 'f' hc (by decide)
          have htk := takeWhile_append_of_all isNumChar cs rest hwf.2.2
            (by intro d hd
                cases rest with
                | nil => simp at hd
                | cons e es =>
                  have hde : e = d := by simpa using hd
                  rw [← hde]
                  simpa [headNotNum] using hrest)
          rw [show dumpsV (.num (c :: cs)) = c :: cs from rfl, List.cons_append]
          simp only [parseVal, h1, h2, h3, h4, h5, h6, Bool.false_eq_true,
            if_false, hc, if_true, htk.1, htk.2]
      | str s =>
        have hlen : (dumpsV (.str s)).length = (escStr s).length + 2 := by
          simp [dumpsV]
        rw [show dumpsV (.str s) = '"' :: (escStr s ++ ['"']) from rfl]
        rw [List.cons_append, List.append_assoc, List.singleton_append]
        simp only [parseVal, beq_self_eq_true, if_true,
          parseStr_escape s fuel rest (by omega)]
        rfl
      | arr a =>
        cases a with
        | nil =>
          rw [show dumpsV (.arr .nil) = ['[', ']'] from rfl]
          simp [parseVal]
        | cons v a2 =>
          rw [JVal.wf] at hwf
          have hwa : JArr.wf (.cons v a2) = true := hwf
          have hv : JVal.wf v = true := by
            rw [JArr.wf, Bool.and_eq_true] at hwa
            exact hwa.1
          have hlen : (dumpsV (.arr (.cons v a2))).length =
              (dumpsArr (.cons v a2)).length + 2 := by
            simp [dumpsV]
          obtain ⟨c, cs, hdv, hc1, hc2⟩ := dumpsV_head v hv
          have hda : ∃ Y, dumpsArr (.cons v a2) = dumpsV v ++ Y := by
            cases a2 with
            | nil => exact ⟨[], by simp [dumpsArr]⟩
            | cons w a3 => exact ⟨_, rfl⟩
          obtain ⟨Y, hY⟩ := hda
          rw [show dumpsV (.arr (.cons v a2)) =
            '[' :: (dumpsArr (.cons v a2) ++ [']']) from rfl]
          rw [List.cons_append, List.append_assoc, List.singleton_append]
          have hhead : ((dumpsArr (.cons v a2) ++ ']' :: rest).head? ==
              some ']') = false := by
            rw [hY, hdv]
            simp only [List.cons_append, List.head?_cons]
            simpa using hc1
          simp only [parseVal, show ('[' == '"') = false by decide,
            Bool.false_eq_true, if_false, beq_self_eq_true, if_true, hhead,
            ihA (.cons v a2) rest hwa (fun h => JArr.noConfusion h) (by omega)]
          rfl
      | obj o =>
        cases o with
        | nil =>
          rw [show dumpsV (.obj .nil) = ['{', '}'] from rfl]
          simp [parseVal]
        | cons k v o2 =>
          rw [JVal.wf] at hwf
          have hwo : JObj.wf (.cons k v o2) = true := hwf
          have hlen : (dumpsV (.obj (.cons k v o2))).length =
              (dumpsObj (.cons k v o2)).length + 2 := by
            simp [dumpsV]
          have hda : ∃ Y, dumpsObj (.cons k v o2) = '"' :: Y := by
            cases o2 with
            | nil => exact ⟨_, rfl⟩
            | cons k2 w o3 => exact ⟨_, rfl⟩
          obtain ⟨Y, hY⟩ := hda
          rw [show dumpsV (.obj (.cons k v o2)) =
            '{' :: (dumpsObj (.cons k v o2) ++ ['}']) from rfl]
          rw [List.cons_append, List.append_assoc, List.singleton_append]
          have hhead : ((dumpsObj (.cons k v o2) ++ '}' :: rest).head? ==
              some '}') = false := by
            rw [hY]
            simp
          simp only [parseVal, show ('{' == '"') = false by decide,
            show ('{' == '[') = false by decide, Bool.false_eq_true, if_false,
            beq_self_eq_true, if_true, hhead,
            ihO (.cons k v o2) rest hwo (fun h => JObj.noConfusion h) (by omega)]
          rfl
    · intro a rest hwf hne hb
      cases a with
      | nil => exact absurd rfl hne
      | cons v a2 =>
        rw [JArr.wf, Bool.and_eq_true] at hwf
        cases a2 with
        | nil =>
          rw [show dumpsArr (.cons v .nil) = dumpsV v from rfl] at hb ⊢
          rw [parseArrElems,
            ihV v (']' :: rest) hwf.1 rfl (by omega)]
          rfl
        | cons w a3 =>
          have hdl : (dumpsArr (.cons v (.cons w a3))).length =
              (dumpsV v).length + 2 + (dumpsArr (.cons w a3)).length := by
            simp [dumpsArr]
            omega
          rw [show dumpsArr (.cons v (.cons w a3)) =
            dumpsV v ++ ',' :: ' ' :: dumpsArr (.cons w a3) from rfl]
          simp only [List.append_assoc, List.cons_append]
          simp only [parseArrElems,
            ihV v (',' :: ' ' :: (dumpsArr (.cons w a3) ++ ']' :: rest))
              hwf.1 rfl (by omega),
            ihA (.cons w a3) rest hwf.2 (fun h => JArr.noConfusion h)
              (by omega)]
          rfl
    · intro o rest hwf hne hb
      cases o with
      | nil => exact absurd rfl hne
      | cons k v o2 =>
        rw [JObj.wf, Bool.and_eq_true] at hwf
        cases o2 with
        | nil =>
          have hdl : (dumpsObj (.cons k v .nil)).length =
              (escStr k).length + 4 + (dumpsV v).length := by
            simp [dumpsObj]
            omega
          rw [show dumpsObj (.cons k v .nil) =
            '"' :: (escStr k ++ '"' :: ':' :: ' ' :: dumpsV v) from rfl]
          simp only [List.append_assoc, List.cons_append]
          simp only [parseObjElems,
            parseStr_escape k fuel (':' :: ' ' :: (dumpsV v ++ '}' :: rest))
              (by omega),
            ihV v ('}' :: rest) hwf.1 rfl (by omega)]
        | cons k2 w o3 =>
          have hdl : (dumpsObj (.cons k v (.cons k2 w o3))).length =
              (escStr k).length + 6 + (dumpsV v).length +
                (dumpsObj (.cons k2 w o3)).length := by
            simp [dumpsObj]
            omega
          rw [show dumpsObj (.cons k v (.cons k2 w o3)) =
            ('"' :: (escStr k ++ '"' :: ':' :: ' ' :: dumpsV v)) ++
              ',' :: ' ' :: dumpsObj (.cons k2 w o3) from rfl]
          simp only [List.append_assoc, List.cons_append]
          simp only [parseObjElems,
            parseStr_escape k fuel
              (':' :: ' ' :: (dumpsV v ++
                ',' :: ' ' :: (dumpsObj (.cons k2 w o3) ++ '}' :: rest)))
              (by omega),
            ihV v (',' :: ' ' :: (dumpsObj (.cons k2 w o3) ++ '}' :: rest))
              hwf.1 rfl (by omega),
            ihO (.cons k2 w o3) rest hwf.2 (fun h => JObj.noConfusion h)
              (by omega)]
          rfl

/-- `json.loads` inverts `json.dumps` on well-formed values. -/
theorem json_loads_dumpsV (v : JVal) (h : JVal.wf v = true) :
    json_loads (dumpsV v) = v := by
  unfold json_loads
  have hp := (parse_round (2 * (dumpsV v).length + 1)).1 v [] h rfl (by omega)
  rw [List.append_nil] at hp
  rw [hp]

/-! ## Handler path lemmas -/

theorem supervisor_hit (hf : Option Str) (llm : Str → Except Str Str)
    (webnet : Str → Except Str JVal) (db : Db) (body : List (Str × JVal))
    (s : Str) (stored : FormattedResp)
    (hb : bodyGet body taskKey (JVal.str []) = JVal.str s)
    (hne : pyStrip s ≠ [])
    (hget : get_from_db db (pyStrip s) = some stored) :
    supervisor_agent hf llm webnet db body =
      ⟨.ok (200, .ok stored), db, [pyStrip s], [], []⟩ := by
  unfold supervisor_agent
  rw [hb]
  have hie : (pyStrip s).isEmpty = false := by
    obtain ⟨c, cs, hcs⟩ := List.exists_cons_of_ne_nil hne
    rw [hcs]
    rfl
  simp only [pyStripJ, hie, Bool.false_eq_true, if_false, hget]

theorem supervisor_miss (hf : Option Str) (llm : Str → Except Str Str)
    (webnet : Str → Except Str JVal) (db : Db) (body : List (Str × JVal))
    (s : Str) (web : List RawResult)
    (hb : bodyGet body taskKey (JVal.str []) = JVal.str s)
    (hne : pyStrip s ≠ [])
    (hget : get_from_db db (pyStrip s) = none)
    (hweb : fetch_web_results (webnet (pyStrip s)) = .ok web) :
    supervisor_agent hf llm webnet db body =
      ⟨.ok (200, .ok (formatResp (pyStrip s)
          (runStages hf llm (pyStrip s) web).hyp web
          (runStages hf llm (pyStrip s) web).ana
          (runStages hf llm (pyStrip s) web).rea
          (runStages hf llm (pyStrip s) web).eva
          (runStages hf llm (pyStrip s) web).summ
          (runStages hf llm (pyStrip s) web).conc)),
       store_in_db db (pyStrip s)
         (runStages hf llm (pyStrip s) web).hyp web
         (runStages hf llm (pyStrip s) web).ana
         (runStages hf llm (pyStrip s) web).rea
         (runStages hf llm (pyStrip s) web).eva
         (runStages hf llm (pyStrip s) web).summ
         (runStages hf llm (pyStrip s) web).conc,
       [pyStrip s], (runStages hf llm (pyStrip s) web).prompts,
       [pyStrip s]⟩ := by
  unfold supervisor_agent
  rw [hb]
  have hie : (pyStrip s).isEmpty = false := by
    obtain ⟨c, cs, hcs⟩ := List.exists_cons_of_ne_nil hne
    rw [hcs]
    rfl
  simp only [pyStripJ, hie, Bool.false_eq_true, if_false, hget, hweb]
  rfl

theorem supervisor_webraise (hf : Option Str) (llm : Str → Except Str Str)
    (webnet : Str → Except Str JVal) (db : Db) (body : List (Str × JVal))
    (s : Str) (e : PyErr)
    (hb : bodyGet body taskKey (JVal.str []) = JVal.str s)
    (hne : pyStrip s ≠ [])
    (hget : get_from_db db (pyStrip s) = none)
    (hweb : fetch_web_results (webnet (pyStrip s)) = .error e) :
    supervisor_agent hf llm webnet db body =
      ⟨.error e, db, [pyStrip s], [hypothesisPrompt (pyStrip s)],
       [pyStrip s]⟩ := by
  unfold supervisor_agent
  rw [hb]
  have hie : (pyStrip s).isEmpty = false := by
    obtain ⟨c, cs, hcs⟩ := List.exists_cons_of_ne_nil hne
    rw [hcs]
    rfl
  simp only [pyStripJ, hie, Bool.false_eq_true, if_false, hget, hweb]

theorem find?_append_of_none {p : DbRow → Bool} {l1 l2 : List DbRow}
    (h : l1.find? p = none) : (l1 ++ l2).find? p = l2.find? p := by
  induction l1 with
  | nil => rfl
  | cons x xs ih =>
    rw [List.cons_append]
    cases hp : p x with
    | true => simp [List.find?, hp] at h
    | false =>
      simp only [List.find?, hp] at h ⊢
      exact ih h

theorem toObj_wf (r : RawResult)
    (h : (JVal.wf r.title && JVal.wf r.link && JVal.wf r.snippet) = true) :
    JVal.wf (RawResult.toObj r) = true := by
  rw [Bool.and_eq_true, Bool.and_eq_true] at h
  show (JVal.wf r.title && (JVal.wf r.link && (JVal.wf r.snippet && true))) = true
  rw [h.1.1, h.1.2, h.2]
  rfl

theorem webToJ_wf (web : List RawResult) (h : webWf web = true) :
    JVal.wf (webToJ web) = true := by
  unfold webWf at h
  induction web with
  | nil => rfl
  | cons r rest ih =>
    rw [List.all_cons, Bool.and_eq_true] at h
    show (JVal.wf (RawResult.toObj r) &&
      JArr.wf (JArr.ofList (rest.map RawResult.toObj))) = true
    rw [toObj_wf r h.1]
    have hrest := ih h.2
    rw [show JVal.wf (webToJ rest) =
      JArr.wf (JArr.ofList (rest.map RawResult.toObj)) from rfl] at hrest
    rw [hrest]
    rfl

/-- After a miss-then-store, looking the task up returns exactly the
formatted record that the storing run responded with. -/
theorem get_after_store (db : Db) (task hyp : Str) (web : List RawResult)
    (ana rea eva summ conc : Str)
    (hget : get_from_db db task = none) (hwf : webWf web = true) :
    get_from_db (store_in_db db task hyp web ana rea eva summ conc) task =
      some (formatResp task hyp web ana rea eva summ conc) := by
  have hfind : db.rows.find? (fun r => r.task == task) = none := by
    unfold get_from_db at hget
    cases hf : db.rows.find? (fun r => r.task == task) with
    | none => rfl
    | some r => rw [hf] at hget; cases hget
  have hany : db.rows.any (fun r => r.task == task) = false := by
    cases ha : db.rows.any (fun r => r.task == task) with
    | false => rfl
    | true =>
      obtain ⟨r, hr, hrt⟩ := List.any_eq_true.mp ha
      exact absurd hrt (List.find?_eq_none.mp hfind r hr)
  unfold store_in_db
  rw [hany]
  simp only [Bool.false_eq_true, if_false]
  unfold get_from_db
  simp only [find?_append_of_none hfind, List.find?_cons, beq_self_eq_true]
  unfold formatResp
  rw [json_loads_dumpsV (webToJ web) (webToJ_wf web hwf)]

/-! ## Normalizer analysis

Basic facts about the scanners of `clean_headings`, leading to the
idempotence analysis: the output contains no asterisks, the two
asterisk-prefixed removal patterns cannot fire on asterisk-free text,
stripping is idempotent, and heading substitution fixes strings whose
line-start heading matches are canonical. -/

theorem matchCI_suffix (k : Str) : ∀ s r, matchCI k s = some r → r <:+ s := by
  induction k with
  | nil =>
    intro s r h
    rw [matchCI] at h
    cases h
    exact List.suffix_rfl
  | cons kc ks ih =>
    intro s r h
    cases s with
    | nil => cases h
    | cons c cs =>
      rw [matchCI] at h
      by_cases hc : (pyLower c == kc) = true
      · rw [if_pos hc] at h
        exact (ih cs r h).trans (List.suffix_cons c cs)
      · rw [if_neg hc] at h
        cases h

theorem matchCI_length (k : Str) : ∀ s r, matchCI k s = some r →
    r.length + k.length = s.length := by
  induction k with
  | nil =>
    intro s r h
    rw [matchCI] at h
    cases h
    rfl
  | cons kc ks ih =>
    intro s r h
    cases s with
    | nil => cases h
    | cons c cs =>
      rw [matchCI] at h
      by_cases hc : (pyLower c == kc) = true
      · rw [if_pos hc] at h
        have := ih cs r h
        simp only [List.length_cons]
        omega
      · rw [if_neg hc] at h
        cases h

theorem tryHead_some_elim (key s : Str) (rest : Str) (nl : Bool)
    (h : tryHead key s = some (rest, nl)) :
    ∃ s2 s4, matchCI key (s.dropWhile pyIsSpace) = some s2 ∧
      s2.dropWhile pyIsSpace = ':' :: s4 ∧
      rest = s4.dropWhile pyIsSpace ∧ nl = wsEndsNL s4 := by
  unfold tryHead at h
  cases hm : matchCI key (s.dropWhile pyIsSpace) with
  | none => rw [hm] at h; cases h
  | some s2 =>
    simp only [hm] at h
    cases hd : s2.dropWhile pyIsSpace with
    | nil => exact Option.noConfusion (hd ▸ h)
    | cons c s4 =>
      simp only [hd] at h
      by_cases hc : (c == ':') = true
      · rw [if_pos hc] at h
        have hce : c = ':' := eq_of_beq hc
        subst hce
        rw [Option.some_inj] at h
        exact ⟨s2, s4, rfl, hd, (congrArg Prod.fst h).symm,
               (congrArg Prod.snd h).symm⟩
      · rw [if_neg hc] at h
        cases h

theorem tryHead_suffix (key s : Str) (rest : Str) (nl : Bool)
    (h : tryHead key s = some (rest, nl)) : rest <:+ s := by
  obtain ⟨s2, s4, hm, hd, hr, _⟩ := tryHead_some_elim key s rest nl h
  subst hr
  calc s4.dropWhile pyIsSpace <:+ s4 := List.dropWhile_suffix _
    _ <:+ ':' :: s4 := List.suffix_cons ':' s4
    _ = s2.dropWhile pyIsSpace := hd.symm
    _ <:+ s2 := List.dropWhile_suffix _
    _ <:+ s.dropWhile pyIsSpace := matchCI_suffix key _ s2 hm
    _ <:+ s := List.dropWhile_suffix _

theorem tryHead_length (key s : Str) (rest : Str) (nl : Bool)
    (hk : key ≠ []) (h : tryHead key s = some (rest, nl)) :
    rest.length < s.length := by
  obtain ⟨s2, s4, hm, hd, hr, _⟩ := tryHead_some_elim key s rest nl h
  subst hr
  have h1 : (s.dropWhile pyIsSpace).length ≤ s.length :=
    (List.dropWhile_suffix _).length_le
  have h2 := matchCI_length key _ s2 hm
  have h3 : (s2.dropWhile pyIsSpace).length ≤ s2.length :=
    (List.dropWhile_suffix _).length_le
  have h4 : (s4.dropWhile pyIsSpace).length ≤ s4.length :=
    (List.dropWhile_suffix _).length_le
  have h5 : s4.length + 1 = (s2.dropWhile pyIsSpace).length := by
    rw [hd]; rfl
  have h6 : 1 ≤ key.length := by
    cases key with
    | nil => exact absurd rfl hk
    | cons a b => simp
  omega

theorem dropWhile_head_false (p : Char → Bool) (s : Str) :
    ∀ c ∈ (s.dropWhile p).head?, p c = false := by
  induction s with
  | nil => intro c h; simp at h
  | cons x xs ih =>
    intro c h
    rw [List.dropWhile_cons] at h
    by_cases hp : p x = true
    · rw [if_pos hp] at h
      exact ih c h
    · rw [if_neg hp] at h
      have hcx : x = c := by simpa using h
      rw [← hcx]
      cases hpx : p x with
      | false => rfl
      | true => exact absurd hpx hp

theorem dropWhile_eq_self_of_head (p : Char → Bool) (s : Str)
    (h : ∀ c ∈ s.head?, p c = false) : s.dropWhile p = s := by
  cases s with
  | nil => rfl
  | cons x xs =>
    rw [List.dropWhile_cons, h x rfl]
    simp

theorem dropWhile_idem (p : Char → Bool) (s : Str) :
    (s.dropWhile p).dropWhile p = s.dropWhile p :=
  dropWhile_eq_self_of_head p _ (dropWhile_head_false p s)

theorem head?_of_front {l₁ l₂ : Str} (h : l₁ <+: l₂) (hne : l₁ ≠ []) :
    l₁.head? = l₂.head? := by
  obtain ⟨u, hu⟩ := h
  subst hu
  cases l₁ with
  | nil => exact absurd rfl hne
  | cons c cs => rfl

/-- Right strip: remove trailing whitespace. -/
theorem pyStrip_eq (s : Str) :
    pyStrip s = ((s.dropWhile pyIsSpace).reverse.dropWhile pyIsSpace).reverse :=
  rfl

theorem pyStrip_idem (s : Str) : pyStrip (pyStrip s) = pyStrip s := by
  have hR : ∀ t : Str,
      ((t.reverse.dropWhile pyIsSpace).reverse.reverse.dropWhile
        pyIsSpace).reverse = (t.reverse.dropWhile pyIsSpace).reverse := by
    intro t
    rw [List.reverse_reverse, dropWhile_idem]
  have hRL : ∀ t : Str,
      ((t.dropWhile pyIsSpace).reverse.dropWhile pyIsSpace).reverse.dropWhile
          pyIsSpace =
        ((t.dropWhile pyIsSpace).reverse.dropWhile pyIsSpace).reverse := by
    intro t
    apply dropWhile_eq_self_of_head
    intro c hc
    by_cases hne :
        ((t.dropWhile pyIsSpace).reverse.dropWhile pyIsSpace).reverse = []
    · rw [hne] at hc
      simp at hc
    · have hpre : ((t.dropWhile pyIsSpace).reverse.dropWhile
          pyIsSpace).reverse <+: t.dropWhile pyIsSpace := by
        have hh := List.reverse_prefix.mpr
          (List.dropWhile_suffix (l := (t.dropWhile pyIsSpace).reverse)
            pyIsSpace)
        rw [List.reverse_reverse] at hh
        exact hh
      rw [head?_of_front hpre hne] at hc
      exact dropWhile_head_false pyIsSpace t c hc
  rw [pyStrip_eq s, pyStrip_eq, hRL s, hR]

theorem dropWhile_append_of_ne_nil (p : Char → Bool) (a b : Str)
    (h : a.dropWhile p ≠ []) :
    (a ++ b).dropWhile p = a.dropWhile p ++ b := by
  induction a with
  | nil => exact absurd rfl h
  | cons x xs ih =>
    rw [List.cons_append, List.dropWhile_cons, List.dropWhile_cons]
    by_cases hp : p x = true
    · rw [if_pos hp, if_pos hp]
      rw [List.dropWhile_cons, if_pos hp] at h
      exact ih h
    · rw [if_neg hp, if_neg hp, List.cons_append]

theorem dropWhile_append_of_nil (p : Char → Bool) (a b : Str)
    (h : a.dropWhile p = []) :
    (a ++ b).dropWhile p = b.dropWhile p := by
  induction a with
  | nil => rfl
  | cons x xs ih =>
    rw [List.cons_append, List.dropWhile_cons]
    rw [List.dropWhile_cons] at h
    by_cases hp : p x = true
    · rw [if_pos hp]
      rw [if_pos hp] at h
      exact ih h
    · rw [if_neg hp] at h
      cases h

theorem pyStrip_append_space (t : Str) :
    pyStrip (t ++ [' ']) = pyStrip t := by
  rw [pyStrip_eq, pyStrip_eq]
  by_cases h : t.dropWhile pyIsSpace = []
  · rw [dropWhile_append_of_nil pyIsSpace t [' '] h, h]
    rfl
  · rw [dropWhile_append_of_ne_nil pyIsSpace t [' '] h]
    rw [List.reverse_append]
    rw [show ([' '] : Str).reverse = [' '] from rfl]
    rw [List.singleton_append]
    rw [show ((' ' :: (t.dropWhile pyIsSpace).reverse).dropWhile pyIsSpace) =
      ((t.dropWhile pyIsSpace).reverse.dropWhile pyIsSpace) from by
        rw [List.dropWhile_cons]
        simp [pyIsSpace]]

/-- Output characters of a heading pass come from the input or from
the replacement. -/
theorem mem_subHeadF (key rep : Str) :
    ∀ fuel b s c, c ∈ subHeadF key rep fuel b s → c ∈ s ∨ c ∈ rep := by
  intro fuel
  induction fuel with
  | zero => intro b s c h; exact Or.inl h
  | succ fuel ih =>
    intro b s c h
    cases s with
    | nil => exact Or.inl h
    | cons x xs =>
      rw [subHeadF] at h
      by_cases hb : b = true
      · rw [if_pos hb] at h
        cases ht : tryHead key (x :: xs) with
        | none =>
          rw [ht] at h
          rcases List.mem_cons.mp h with hcx | hrec
          · exact Or.inl (List.mem_cons.mpr (Or.inl hcx))
          · rcases ih _ xs c hrec with hs | hr
            · exact Or.inl (List.mem_cons.mpr (Or.inr hs))
            · exact Or.inr hr
        | some r =>
          rw [ht] at h
          rcases List.mem_append.mp h with hrep | hrec
          · exact Or.inr hrep
          · rcases ih _ r.1 c hrec with hs | hr
            · exact Or.inl
                ((tryHead_suffix key (x :: xs) r.1 r.2
                  (by rw [ht])).subset hs)
            · exact Or.inr hr
      · rw [if_neg hb] at h
        rcases List.mem_cons.mp h with hcx | hrec
        · exact Or.inl (List.mem_cons.mpr (Or.inl hcx))
        · rcases ih _ xs c hrec with hs | hr
          · exact Or.inl (List.mem_cons.mpr (Or.inr hs))
          · exact Or.inr hr

theorem mem_pyStrip (s : Str) (c : Char) (h : c ∈ pyStrip s) : c ∈ s := by
  rw [pyStrip_eq] at h
  rw [List.mem_reverse] at h
  have h2 := (List.dropWhile_suffix pyIsSpace).subset h
  rw [List.mem_reverse] at h2
  exact (List.dropWhile_suffix pyIsSpace).subset h2

/-- The normalized output contains no asterisks. -/
theorem noStar_clean (x : Str) : '*' ∉ clean_headings x := by
  intro hmem
  unfold clean_headings at hmem
  have h1 := mem_pyStrip _ _ hmem
  have h2 : ∀ (l : List (Str × Str)) (t : Str), '*' ∉ t →
      (∀ kr ∈ l, '*' ∉ kr.2) →
      '*' ∉ l.foldl (fun acc kr => subHead kr.1 kr.2 acc) t := by
    intro l
    induction l with
    | nil => intro t ht _ h; exact ht h
    | cons kr rest ih =>
      intro t ht hreps h
      rw [List.foldl_cons] at h
      refine ih (subHead kr.1 kr.2 t) ?_ (fun a ha => hreps a (by simp [ha])) h
      intro hsub
      rcases mem_subHeadF kr.1 kr.2 _ _ _ _ hsub with hin | hin
      · exact ht hin
      · exact hreps kr (by simp) hin
  refine h2 headKeys _ ?_ (by decide) h1
  intro hf
  have := List.mem_filter.mp hf
  simp at this

/-- ASCII lower-casing hits the asterisk only at the asterisk. -/
theorem pyLower_star (c : Char) (h : pyLower c = '*') : c = '*' := by
  unfold pyLower at h
  split at h
  · rename_i hAZ
    exfalso
    rw [Bool.and_eq_true] at hAZ
    have h1 : 'A' ≤ c := of_decide_eq_true hAZ.1
    have h2 : c ≤ 'Z' := of_decide_eq_true hAZ.2
    rw [Char.le_def] at h1 h2
    have hv : (c.toNat + 32).isValidChar := by
      left
      have : c.val ≤ 90 := h2
      have htn : c.toNat ≤ 90 := this
      omega
    have htn := congrArg Char.toNat h
    rw [show (Char.ofNat (c.toNat + 32)).toNat = c.toNat + 32 from by
      unfold Char.ofNat
      rw [dif_pos hv]
      rfl] at htn
    have h65 : (65 : UInt32) ≤ c.val := h1
    have h65n : 65 ≤ c.toNat := h65
    rw [show ('*').toNat = 42 from rfl] at htn
    omega
  · exact h

theorem matchCI_star_none (p : Str) (c : Char) (cs : Str) (hc : c ≠ '*') :
    matchCI ('*' :: p) (c :: cs) = none := by
  rw [matchCI]
  rw [if_neg ?_]
  intro hl
  exact hc (pyLower_star c (eq_of_beq hl))

/-- The two asterisk-prefixed removal patterns cannot fire on
asterisk-free text. -/
theorem subPhraseF_star_id (p : Str) :
    ∀ fuel s, '*' ∉ s → subPhraseF (some ('*' :: p)) fuel s = s := by
  intro fuel
  induction fuel with
  | zero => intro s _; rfl
  | succ fuel ih =>
    intro s hs
    cases s with
    | nil => rfl
    | cons c cs =>
      have hc : c ≠ '*' := fun h => hs (h ▸ List.mem_cons_self c cs)
      rw [subPhraseF]
      have htp : tryPhrase (some ('*' :: p)) (c :: cs) = none := by
        simp [tryPhrase, matchCI_star_none p c cs hc]
      rw [htp]
      rw [ih cs (fun h => hs (List.mem_cons.mpr (Or.inr h)))]

theorem getLast?_append_right (a b : Str) (h : b ≠ []) :
    (a ++ b).getLast? = b.getLast? := by
  rw [← List.head?_reverse, ← List.head?_reverse, List.reverse_append]
  cases hbr : b.reverse with
  | nil =>
    exact absurd (by rw [← List.reverse_reverse b, hbr]; rfl) h
  | cons c cs =>
    rw [List.cons_append]
    rfl

theorem getLast?_suffix {t s : Str} (h : t <:+ s) (hne : t ≠ []) :
    t.getLast? = s.getLast? := by
  obtain ⟨u, hu⟩ := h
  rw [← hu, getLast?_append_right u t hne]

theorem noTrailWS_nil : noTrailWS [] := by
  intro c hc
  simp at hc

theorem noTrailWS_tail (c : Char) (cs : Str) (h : noTrailWS (c :: cs)) :
    noTrailWS cs := by
  cases cs with
  | nil => exact noTrailWS_nil
  | cons c2 cs2 =>
    intro x hx
    have hgl := getLast?_suffix (t := c2 :: cs2) (s := c :: c2 :: cs2)
      (List.suffix_cons c _) (by simp)
    rw [hgl] at hx
    exact h x hx

theorem noTrailWS_suffix {t s : Str} (hsuf : t <:+ s) (h : noTrailWS s) :
    noTrailWS t := by
  cases t with
  | nil => exact noTrailWS_nil
  | cons c2 cs2 =>
    intro x hx
    rw [getLast?_suffix hsuf (by simp)] at hx
    exact h x hx

theorem noTrailWS_pyStrip (s : Str) : noTrailWS (pyStrip s) := by
  intro c hc
  rw [pyStrip_eq, List.getLast?_reverse] at hc
  exact dropWhile_head_false pyIsSpace _ c hc

theorem noTrailWS_clean (x : Str) : noTrailWS (clean_headings x) := by
  simp only [clean_headings]
  exact noTrailWS_pyStrip _

theorem pyStrip_clean (x : Str) :
    pyStrip (clean_headings x) = clean_headings x := by
  simp only [clean_headings]
  exact pyStrip_idem _

theorem dropLast_pair (p : Str) (a b : Char) :
    (p ++ [a, b]).dropLast = p ++ [a] := by
  rw [show p ++ [a, b] = (p ++ [a]) ++ [b] from by
    rw [List.append_assoc]; rfl]
  exact List.dropLast_concat

theorem matchCI_append (k : Str) : ∀ u v s2, matchCI k u = some s2 →
    matchCI k (u ++ v) = some (s2 ++ v) := by
  induction k with
  | nil =>
    intro u v s2 h
    rw [matchCI] at h
    cases h
    rfl
  | cons kc ks ih =>
    intro u v s2 h
    cases u with
    | nil => cases h
    | cons c cs =>
      rw [matchCI] at h
      rw [List.cons_append, matchCI]
      by_cases hc : (pyLower c == kc) = true
      · rw [if_pos hc] at h
        rw [if_pos hc]
        exact ih cs v s2 h
      · rw [if_neg hc] at h
        cases h

theorem matchCI_none_space (k : Str) : ∀ u s2, matchCI k u = none →
    matchCI k (u ++ [' ']) = some s2 → s2 = [] := by
  induction k with
  | nil =>
    intro u s2 h _
    rw [matchCI] at h
    cases h
  | cons kc ks ih =>
    intro u s2 h hg
    cases u with
    | nil =>
      rw [List.nil_append, matchCI] at hg
      by_cases hc : (pyLower ' ' == kc) = true
      · rw [if_pos hc] at hg
        cases ks with
        | nil =>
          rw [matchCI] at hg
          cases hg
          rfl
        | cons k2 ks2 => cases hg
      · rw [if_neg hc] at hg
        cases hg
    | cons c cs =>
      rw [matchCI] at h
      rw [List.cons_append, matchCI] at hg
      by_cases hc : (pyLower c == kc) = true
      · rw [if_pos hc] at h hg
        exact ih cs s2 h hg
      · rw [if_neg hc] at hg
        cases hg

theorem takeWhile_append_left (p : Char → Bool) (a v : Str)
    (h : a.dropWhile p ≠ []) : (a ++ v).takeWhile p = a.takeWhile p := by
  induction a with
  | nil => exact absurd rfl h
  | cons x xs ih =>
    rw [List.cons_append, List.takeWhile_cons, List.takeWhile_cons]
    rw [List.dropWhile_cons] at h
    by_cases hp : p x = true
    · rw [if_pos hp] at h
      rw [if_pos hp, if_pos hp, ih h]
    · rw [if_neg hp, if_neg hp]

theorem takeWhile_all (p : Char → Bool) (l : Str)
    (h : ∀ c ∈ l, p c = true) : l.takeWhile p = l := by
  induction l with
  | nil => rfl
  | cons x xs ih =>
    rw [List.takeWhile_cons, if_pos (h x (List.mem_cons_self x xs))]
    rw [ih (fun c hc => h c (List.mem_cons_of_mem x hc))]

theorem wsEndsNL_append_space (s4 : Str)
    (h : s4.dropWhile pyIsSpace ≠ []) :
    wsEndsNL (s4 ++ [' ']) = wsEndsNL s4 := by
  unfold wsEndsNL
  rw [takeWhile_append_left pyIsSpace s4 [' '] h]

theorem wsEndsNL_allws_space (s4 : Str)
    (h : s4.dropWhile pyIsSpace = []) :
    wsEndsNL (s4 ++ [' ']) = false := by
  unfold wsEndsNL
  have hall : ∀ c ∈ s4, pyIsSpace c = true := List.dropWhile_eq_nil_iff.mp h
  have htw : (s4 ++ [' ']).takeWhile pyIsSpace = s4 ++ [' '] := by
    refine takeWhile_all pyIsSpace (s4 ++ [' ']) ?_
    intro c hc
    rcases List.mem_append.mp hc with hc | hc
    · exact hall c hc
    · rw [List.mem_singleton.mp hc]; decide
  rw [htw, getLast?_append_right s4 [' '] (by simp)]
  rfl

theorem tryHead_allws (key t : Str) (hk : key ≠ [])
    (h : t.dropWhile pyIsSpace = []) : tryHead key t = none := by
  unfold tryHead
  rw [h]
  cases key with
  | nil => exact absurd rfl hk
  | cons kc ks =>
    rw [matchCI]

theorem tryHead_append_none (key t : Str) (hk : key ≠ [])
    (h : tryHead key t = none) : tryHead key (t ++ [' ']) = none := by
  by_cases ht : t.dropWhile pyIsSpace = []
  · refine tryHead_allws key (t ++ [' ']) hk ?_
    rw [dropWhile_append_of_nil pyIsSpace t [' '] ht]
    decide
  · unfold tryHead at h ⊢
    rw [dropWhile_append_of_ne_nil pyIsSpace t [' '] ht]
    cases hm : matchCI key (t.dropWhile pyIsSpace) with
    | none =>
      cases hm2 : matchCI key (t.dropWhile pyIsSpace ++ [' ']) with
      | none => rfl
      | some s2 =>
        have hs2 : s2 = [] := matchCI_none_space key _ s2 hm hm2
        subst hs2
        rfl
    | some s2 =>
      have h1 : (t ++ [' ']).dropWhile pyIsSpace =
          t.dropWhile pyIsSpace ++ [' '] :=
        dropWhile_append_of_ne_nil pyIsSpace t [' '] ht
      have h2 : matchCI key (t.dropWhile pyIsSpace ++ [' ']) =
          some (s2 ++ [' ']) := matchCI_append key _ [' '] s2 hm
      simp only [hm] at h
      cases hd : s2.dropWhile pyIsSpace with
      | nil =>
        have h3 : (s2 ++ [' ']).dropWhile pyIsSpace = [] := by
          rw [dropWhile_append_of_nil pyIsSpace s2 [' '] hd]
          rfl
        simp only [h2, h3]
      | cons c s4 =>
        simp only [hd] at h
        by_cases hc : (c == ':') = true
        · rw [if_pos hc] at h
          cases h
        · have h3 : (s2 ++ [' ']).dropWhile pyIsSpace =
              c :: (s4 ++ [' ']) := by
            rw [dropWhile_append_of_ne_nil pyIsSpace s2 [' ']
              (by rw [hd]; exact fun hh => List.noConfusion hh), hd,
              List.cons_append]
          simp only [h2, h3, if_neg hc]

theorem tryHead_append_cons (key t : Str) (d : Char) (r : Str) (nl : Bool)
    (hk : key ≠ []) (h : tryHead key t = some (d :: r, nl)) :
    tryHead key (t ++ [' ']) = some (d :: (r ++ [' ']), nl) := by
  obtain ⟨s2, s4, hm, hd, hr, hnl⟩ := tryHead_some_elim key t _ _ h
  have htd : t.dropWhile pyIsSpace ≠ [] := by
    intro hnil
    rw [hnil] at hm
    cases key with
    | nil => exact absurd rfl hk
    | cons kc ks => cases hm
  unfold tryHead
  have hs2ne : s2.dropWhile pyIsSpace ≠ [] := by
    rw [hd]; exact fun hh => List.noConfusion hh
  have hs4ne : s4.dropWhile pyIsSpace ≠ [] := by
    rw [← hr]; exact fun hh => List.noConfusion hh
  have h1 : (t ++ [' ']).dropWhile pyIsSpace =
      t.dropWhile pyIsSpace ++ [' '] :=
    dropWhile_append_of_ne_nil pyIsSpace t [' '] htd
  have h2 : matchCI key (t.dropWhile pyIsSpace ++ [' ']) =
      some (s2 ++ [' ']) := matchCI_append key _ [' '] s2 hm
  have h3 : (s2 ++ [' ']).dropWhile pyIsSpace = ':' :: (s4 ++ [' ']) := by
    rw [dropWhile_append_of_ne_nil pyIsSpace s2 [' '] hs2ne, hd,
      List.cons_append]
  have h4 : (s4 ++ [' ']).dropWhile pyIsSpace = d :: (r ++ [' ']) := by
    rw [dropWhile_append_of_ne_nil pyIsSpace s4 [' '] hs4ne, ← hr,
      List.cons_append]
  have h5 : wsEndsNL (s4 ++ [' ']) = nl := by
    rw [wsEndsNL_append_space s4 hs4ne, ← hnl]
  simp only [h1, h2, h3, h4, h5]
  rfl

theorem tryHead_append_nil (key t : Str) (nl : Bool) (hk : key ≠ [])
    (h : tryHead key t = some ([], nl)) :
    tryHead key (t ++ [' ']) = some ([], false) := by
  obtain ⟨s2, s4, hm, hd, hr, _⟩ := tryHead_some_elim key t _ _ h
  have htd : t.dropWhile pyIsSpace ≠ [] := by
    intro hnil
    rw [hnil] at hm
    cases key with
    | nil => exact absurd rfl hk
    | cons kc ks => cases hm
  unfold tryHead
  have hs2ne : s2.dropWhile pyIsSpace ≠ [] := by
    rw [hd]; exact fun hh => List.noConfusion hh
  have h1 : (t ++ [' ']).dropWhile pyIsSpace =
      t.dropWhile pyIsSpace ++ [' '] :=
    dropWhile_append_of_ne_nil pyIsSpace t [' '] htd
  have h2 : matchCI key (t.dropWhile pyIsSpace ++ [' ']) =
      some (s2 ++ [' ']) := matchCI_append key _ [' '] s2 hm
  have h3 : (s2 ++ [' ']).dropWhile pyIsSpace = ':' :: (s4 ++ [' ']) := by
    rw [dropWhile_append_of_ne_nil pyIsSpace s2 [' '] hs2ne, hd,
      List.cons_append]
  have h4 : (s4 ++ [' ']).dropWhile pyIsSpace = [] := by
    rw [dropWhile_append_of_nil pyIsSpace s4 [' '] hr.symm]
    rfl
  have h5 : wsEndsNL (s4 ++ [' ']) = false :=
    wsEndsNL_allws_space s4 hr.symm
  simp only [h1, h2, h3, h4, h5]
  rfl

theorem canonF_nil (key rep : Str) (fuel : Nat) (b : Bool) :
    canonF key rep fuel b [] = true := by
  cases fuel <;> rfl

theorem subHeadF_nil (key rep : Str) (fuel : Nat) (b : Bool) :
    subHeadF key rep fuel b [] = [] := by
  cases fuel <;> rfl

theorem canonF_fuel (key rep : Str) (hk : key ≠ []) :
    ∀ f1 f2 b s, s.length ≤ f1 → s.length ≤ f2 →
      canonF key rep f1 b s = canonF key rep f2 b s := by
  intro f1
  induction f1 with
  | zero =>
    intro f2 b s h1 _
    have hs : s = [] := List.eq_nil_of_length_eq_zero (Nat.le_zero.mp h1)
    subst hs
    rw [canonF_nil, canonF_nil]
  | succ f1 ih =>
    intro f2 b s h1 h2
    cases s with
    | nil => rw [canonF_nil, canonF_nil]
    | cons c cs =>
      cases f2 with
      | zero => simp at h2
      | succ f2 =>
        have hc1 : cs.length ≤ f1 := by
          simp only [List.length_cons] at h1
          omega
        have hc2 : cs.length ≤ f2 := by
          simp only [List.length_cons] at h2
          omega
        rw [canonF, canonF]
        by_cases hb : b = true
        · rw [if_pos hb, if_pos hb]
          cases ht : tryHead key (c :: cs) with
          | none => exact ih f2 (c == '\n') cs hc1 hc2
          | some pr =>
            obtain ⟨rest, nl⟩ := pr
            have hlr := tryHead_length key (c :: cs) rest nl hk ht
            simp only [List.length_cons] at hlr
            exact congrArg
              (fun z => ((c :: cs == rep ++ rest) ||
                (rest.isEmpty && (c :: cs == rep.dropLast))) && z)
              (ih f2 nl rest (by omega) (by omega))
        · rw [if_neg hb, if_neg hb]
          exact ih f2 (c == '\n') cs hc1 hc2

theorem canonF_append_space (key rep : Str) (hk : key ≠ [])
    (p : Str) (hrep : rep = p ++ [':', ' ']) :
    ∀ fuel b s, s.length < fuel → noTrailWS s →
      canonF key rep fuel b s = true →
      canonF key rep fuel b (s ++ [' ']) = true := by
  intro fuel
  induction fuel with
  | zero =>
    intro b s h _ _
    exact absurd h (Nat.not_lt_zero _)
  | succ fuel ih =>
    intro b s hlen hnt hc
    cases s with
    | nil =>
      rw [List.nil_append, canonF]
      have hth : tryHead key [' '] = none :=
        tryHead_allws key [' '] hk (by decide)
      by_cases hb : b = true
      · rw [if_pos hb, hth]
        exact canonF_nil key rep fuel _
      · rw [if_neg hb]
        exact canonF_nil key rep fuel _
    | cons c cs =>
      have hcs : cs.length < fuel := by
        simp only [List.length_cons] at hlen
        omega
      rw [List.cons_append]
      rw [canonF] at hc ⊢
      by_cases hb : b = true
      case neg =>
        rw [if_neg hb] at hc ⊢
        exact ih (c == '\n') cs hcs (noTrailWS_tail c cs hnt) hc
      case pos =>
        rw [if_pos hb] at hc ⊢
        cases ht : tryHead key (c :: cs) with
        | none =>
          simp only [ht] at hc
          have hg : tryHead key (c :: (cs ++ [' '])) = none := by
            have := tryHead_append_none key (c :: cs) hk ht
            rw [List.cons_append] at this
            exact this
          rw [hg]
          exact ih (c == '\n') cs hcs (noTrailWS_tail c cs hnt) hc
        | some pr =>
          obtain ⟨rest, nl⟩ := pr
          simp only [ht] at hc
          rw [Bool.and_eq_true] at hc
          obtain ⟨hdisj, hcr⟩ := hc
          cases rest with
          | nil =>
            have hg : tryHead key (c :: (cs ++ [' '])) =
                some ([], false) := by
              have := tryHead_append_nil key (c :: cs) nl hk ht
              rw [List.cons_append] at this
              exact this
            rw [hg]
            have h1 : c :: cs = rep.dropLast := by
              rw [Bool.or_eq_true] at hdisj
              rcases hdisj with h | h
              · exfalso
                have he : c :: cs = rep := by
                  have := eq_of_beq h
                  rw [List.append_nil] at this
                  exact this
                have hgl : (c :: cs).getLast? = some ' ' := by
                  rw [he, hrep, getLast?_append_right p [':', ' ']
                    (by simp)]
                  rfl
                have := hnt ' ' (by rw [hgl]; rfl)
                simp [pyIsSpace] at this
              · rw [Bool.and_eq_true] at h
                exact eq_of_beq h.2
            have h2 : (c :: (cs ++ [' ']) == rep ++ ([] : Str)) = true := by
              refine beq_iff_eq.mpr ?_
              rw [List.append_nil, ← List.cons_append, h1, hrep,
                dropLast_pair, List.append_assoc]
              rfl
            simp only [h2, Bool.true_or, Bool.true_and]
            exact canonF_nil key rep fuel false
          | cons d r =>
            have hdeq : c :: cs = rep ++ d :: r := by
              rw [Bool.or_eq_true] at hdisj
              rcases hdisj with h | h
              · exact eq_of_beq h
              · rw [Bool.and_eq_true] at h
                simp [List.isEmpty] at h
            have hg : tryHead key (c :: (cs ++ [' '])) =
                some (d :: (r ++ [' ']), nl) := by
              have := tryHead_append_cons key (c :: cs) d r nl hk ht
              rw [List.cons_append] at this
              exact this
            rw [hg]
            have h2 : (c :: (cs ++ [' ']) == rep ++ d :: (r ++ [' '])) =
                true := by
              refine beq_iff_eq.mpr ?_
              rw [← List.cons_append, hdeq, List.append_assoc,
                List.cons_append]
            have hlr : (d :: r).length < fuel := by
              have := tryHead_length key (c :: cs) (d :: r) nl hk ht
              simp only [List.length_cons] at this hlen ⊢
              omega
            have hntr : noTrailWS (d :: r) :=
              noTrailWS_suffix (tryHead_suffix key (c :: cs) (d :: r) nl ht)
                hnt
            have hih := ih nl (d :: r) hlr hntr hcr
            rw [List.cons_append] at hih
            simp only [h2, Bool.true_or, Bool.true_and]
            exact hih

theorem subHeadF_canon (key rep : Str) (hk : key ≠ [])
    (p : Str) (hrep : rep = p ++ [':', ' ']) :
    ∀ fuel b s, s.length ≤ fuel → canonF key rep fuel b s = true →
      subHeadF key rep fuel b s = s ∨
      (subHeadF key rep fuel b s = s ++ [' '] ∧
        s.getLast? = some ':') := by
  intro fuel
  induction fuel with
  | zero => intro b s _ _; exact Or.inl rfl
  | succ fuel ih =>
    intro b s hlen hc
    cases s with
    | nil => exact Or.inl rfl
    | cons c cs =>
      have hcs : cs.length ≤ fuel := by
        simp only [List.length_cons] at hlen
        omega
      rw [subHeadF]
      rw [canonF] at hc
      by_cases hb : b = true
      case neg =>
        rw [if_neg hb] at hc ⊢
        rcases ih (c == '\n') cs hcs hc with h | ⟨h, hl⟩
        · exact Or.inl (by rw [h])
        · refine Or.inr ⟨by rw [h, List.cons_append], ?_⟩
          have hne : cs ≠ [] := by
            intro hh
            rw [hh] at hl
            simp at hl
          have := getLast?_append_right [c] cs hne
          rw [List.singleton_append] at this
          rw [this]
          exact hl
      case pos =>
        rw [if_pos hb] at hc ⊢
        cases ht : tryHead key (c :: cs) with
        | none =>
          simp only [ht] at hc
          rcases ih (c == '\n') cs hcs hc with h | ⟨h, hl⟩
          · exact Or.inl (by rw [h])
          · refine Or.inr ⟨by rw [h, List.cons_append], ?_⟩
            have hne : cs ≠ [] := by
              intro hh
              rw [hh] at hl
              simp at hl
            have := getLast?_append_right [c] cs hne
            rw [List.singleton_append] at this
            rw [this]
            exact hl
        | some pr =>
          obtain ⟨rest, nl⟩ := pr
          simp only [ht] at hc
          rw [Bool.and_eq_true] at hc
          obtain ⟨hdisj, hcr⟩ := hc
          have hlr : rest.length ≤ fuel := by
            have := tryHead_length key (c :: cs) rest nl hk ht
            simp only [List.length_cons] at this hlen
            omega
          rw [Bool.or_eq_true] at hdisj
          rcases hdisj with h1 | h1
          · have he : c :: cs = rep ++ rest := eq_of_beq h1
            rcases ih nl rest hlr hcr with h | ⟨h, hl⟩
            · refine Or.inl ?_
              show rep ++ subHeadF key rep fuel nl rest = c :: cs
              rw [h]
              exact he.symm
            · refine Or.inr ⟨?_, ?_⟩
              · show rep ++ subHeadF key rep fuel nl rest =
                  (c :: cs) ++ [' ']
                rw [h, he, List.append_assoc]
              · have hne : rest ≠ [] := by
                  intro hh
                  rw [hh] at hl
                  simp at hl
                rw [he, getLast?_append_right rep rest hne]
                exact hl
          · rw [Bool.and_eq_true] at h1
            have hre : rest = [] := by
              cases rest with
              | nil => rfl
              | cons a bb => simp [List.isEmpty] at h1
            subst hre
            have he : c :: cs = rep.dropLast := eq_of_beq h1.2
            refine Or.inr ⟨?_, ?_⟩
            · show rep ++ subHeadF key rep fuel nl [] = (c :: cs) ++ [' ']
              rw [subHeadF_nil, List.append_nil, he, hrep, dropLast_pair,
                List.append_assoc]
              rfl
            · rw [he, hrep, dropLast_pair,
                getLast?_append_right p [':'] (by simp)]
              rfl

theorem foldHeads_fix (L : List (Str × Str)) :
    ∀ t : Str, t.getLast? = some ' ' →
      (∀ kr ∈ L, kr.1 ≠ ([] : Str) ∧ ∃ p : Str, kr.2 = p ++ [':', ' ']) →
      (∀ kr ∈ L, canon kr.1 kr.2 t = true) →
      L.foldl (fun acc kr => subHead kr.1 kr.2 acc) t = t := by
  induction L with
  | nil => intro t _ _ _; rfl
  | cons kr L ih =>
    intro t hl hL hcan
    simp only [List.foldl_cons]
    obtain ⟨hk, p, hp⟩ := hL kr (List.mem_cons_self kr L)
    have hc := hcan kr (List.mem_cons_self kr L)
    rcases subHeadF_canon kr.1 kr.2 hk p hp t.length true t (le_refl _) hc
      with h | ⟨_, h2⟩
    · have h' : subHead kr.1 kr.2 t = t := h
      rw [h']
      exact ih t hl (fun a ha => hL a (List.mem_cons_of_mem _ ha))
        (fun a ha => hcan a (List.mem_cons_of_mem _ ha))
    · rw [hl] at h2
      exact absurd (Option.some.inj h2) (by decide)

theorem foldHeads_canon (L : List (Str × Str)) :
    ∀ s : Str, noTrailWS s →
      (∀ kr ∈ L, kr.1 ≠ ([] : Str) ∧ ∃ p : Str, kr.2 = p ++ [':', ' ']) →
      (∀ kr ∈ L, canon kr.1 kr.2 s = true) →
      L.foldl (fun acc kr => subHead kr.1 kr.2 acc) s = s ∨
      L.foldl (fun acc kr => subHead kr.1 kr.2 acc) s = s ++ [' '] := by
  induction L with
  | nil => intro s _ _ _; exact Or.inl rfl
  | cons kr L ih =>
    intro s hnt hL hcan
    simp only [List.foldl_cons]
    obtain ⟨hk, p, hp⟩ := hL kr (List.mem_cons_self kr L)
    have hc := hcan kr (List.mem_cons_self kr L)
    rcases subHeadF_canon kr.1 kr.2 hk p hp s.length true s (le_refl _) hc
      with h | ⟨h, _⟩
    · have h' : subHead kr.1 kr.2 s = s := h
      rw [h']
      exact ih s hnt (fun a ha => hL a (List.mem_cons_of_mem _ ha))
        (fun a ha => hcan a (List.mem_cons_of_mem _ ha))
    · have h' : subHead kr.1 kr.2 s = s ++ [' '] := h
      rw [h']
      have hgl : (s ++ [' ']).getLast? = some ' ' := by
        rw [getLast?_append_right s [' '] (by simp)]
        rfl
      have hcan' : ∀ a ∈ L, canon a.1 a.2 (s ++ [' ']) = true := by
        intro a ha
        obtain ⟨hka, q, hq⟩ := hL a (List.mem_cons_of_mem _ ha)
        have hca := hcan a (List.mem_cons_of_mem _ ha)
        have hlift : canonF a.1 a.2 (s.length + 1) true s = true := by
          rw [canonF_fuel a.1 a.2 hka (s.length + 1) s.length true s
            (Nat.le_succ _) (le_refl _)]
          exact hca
        have happ := canonF_append_space a.1 a.2 hka q hq (s.length + 1)
          true s (Nat.lt_succ_self _) hnt hlift
        show canonF a.1 a.2 (s ++ [' ']).length true (s ++ [' ']) = true
        rw [show (s ++ [' ']).length = s.length + 1 from by simp]
        exact happ
      rw [foldHeads_fix L (s ++ [' ']) hgl
        (fun a ha => hL a (List.mem_cons_of_mem _ ha)) hcan']
      exact Or.inr rfl

theorem filter_ne_star (s : Str) (h : '*' ∉ s) :
    s.filter (fun c => c != '*') = s := by
  induction s with
  | nil => rfl
  | cons c cs ih =>
    have hc : (c != '*') = true := by
      have hcc : c ≠ '*' := by
        intro he
        exact h (by rw [← he]; exact List.mem_cons_self c cs)
      simpa using hcc
    rw [List.filter_cons, if_pos hc,
      ih (fun hm => h (List.mem_cons_of_mem c hm))]

theorem subPhrase_dstar_id (s : Str) (h : '*' ∉ s) :
    subPhrase (some (("**").toList)) s = s := by
  rw [show (("**").toList : Str) = '*' :: ['*'] from rfl]
  exact subPhraseF_star_id ['*'] s.length s h

theorem subPhrase_sstar_id (s : Str) (h : '*' ∉ s) :
    subPhrase (some (("*").toList)) s = s := by
  rw [show (("*").toList : Str) = '*' :: [] from rfl]
  exact subPhraseF_star_id [] s.length s h

theorem headKeys_shape :
    ∀ kr ∈ headKeys, kr.1 ≠ ([] : Str) ∧
      ∃ p : Str, kr.2 = p ++ [':', ' '] := by
  intro kr hkr
  simp only [headKeys, List.mem_cons, List.not_mem_nil, or_false] at hkr
  rcases hkr with h | h | h | h | h | h | h | h <;> subst h
  · exact ⟨by decide, ("Analysis").toList, rfl⟩
  · exact ⟨by decide, ("Summary").toList, rfl⟩
  · exact ⟨by decide, ("Conclusion").toList, rfl⟩
  · exact ⟨by decide, ("Evaluation").toList, rfl⟩
  · exact ⟨by decide, ("Reasoning").toList, rfl⟩
  · exact ⟨by decide, ("Hypotheses").toList, rfl⟩
  · exact ⟨by decide, ("Key Insights").toList, rfl⟩
  · exact ⟨by decide, ("Recommendation").toList, rfl⟩

/-- Core fixed-point lemma for the normalizer: a star-free, stripped
string that is untouched by the plain phrase removal and is canonical
for every heading pattern is a fixed point of `clean_headings`. -/
theorem clean_fix (s : Str) (hstar : '*' ∉ s)
    (hstrip : pyStrip s = s) (h1 : subPhrase none s = s)
    (h2 : ∀ kr ∈ headKeys, canon kr.1 kr.2 s = true) :
    clean_headings s = s := by
  have hnt : noTrailWS s := hstrip ▸ noTrailWS_pyStrip s
  simp only [clean_headings]
  rw [subPhrase_dstar_id s hstar, subPhrase_sstar_id s hstar, h1,
    filter_ne_star s hstar]
  rcases foldHeads_canon headKeys s hnt headKeys_shape h2 with hf | hf
  · rw [hf, hstrip]
  · rw [hf, pyStrip_append_space, hstrip]

theorem mem_of_getLast? {l : Str} {x : Char} (h : l.getLast? = some x) :
    x ∈ l := by
  induction l with
  | nil => cases h
  | cons c cs ih =>
    by_cases hne : cs = []
    · subst hne
      rw [List.getLast?_singleton] at h
      have hcx : c = x := Option.some.inj h
      rw [← hcx]
      exact List.mem_cons_self c []
    · have hgl := getLast?_append_right [c] cs hne
      rw [List.singleton_append] at hgl
      rw [hgl] at h
      exact List.mem_cons_of_mem c (ih h)

theorem pyIsSpace_not_upper (c : Char) (h : pyIsSpace c = true) :
    ('A' ≤ c && c ≤ 'Z') = false := by
  cases hb : ('A' ≤ c && c ≤ 'Z') with
  | false => rfl
  | true =>
    exfalso
    rw [Bool.and_eq_true] at hb
    have h1 : 'A' ≤ c := of_decide_eq_true hb.1
    have h2 : c ≤ 'Z' := of_decide_eq_true hb.2
    rw [Char.le_def] at h1 h2
    have h65 : (65 : UInt32) ≤ c.val := h1
    have h90 : c.val ≤ (90 : UInt32) := h2
    have h65n : 65 ≤ c.toNat := h65
    have h90n : c.toNat ≤ 90 := h90
    unfold pyIsSpace at h
    simp only [Bool.or_eq_true, beq_iff_eq, Bool.and_eq_true,
      decide_eq_true_eq] at h
    rcases h with (((((hx | hx) | hx) | hx) | hx) | hx) | hx
    · have h32 : c.toNat = 32 := by rw [hx]; rfl
      omega
    · have h9 : c.toNat = 9 := by rw [hx]; rfl
      omega
    · have h10 : c.toNat = 10 := by rw [hx]; rfl
      omega
    · omega
    · omega
    · omega
    · omega

theorem pyLower_ws (c : Char) (h : pyIsSpace c = true) : pyLower c = c := by
  unfold pyLower
  rw [pyIsSpace_not_upper c h]
  rfl

theorem matchCI_decomp (k : Str) : ∀ u v, matchCI k u = some v →
    ∃ w, u = w ++ v ∧ w.map pyLower = k := by
  induction k with
  | nil =>
    intro u v h
    rw [matchCI] at h
    cases h
    exact ⟨[], rfl, rfl⟩
  | cons kc ks ih =>
    intro u v h
    cases u with
    | nil => cases h
    | cons c cs =>
      rw [matchCI] at h
      by_cases hc : (pyLower c == kc) = true
      · rw [if_pos hc] at h
        obtain ⟨w, hw1, hw2⟩ := ih cs v h
        exact ⟨c :: w, by rw [List.cons_append, hw1],
          by rw [List.map_cons, hw2, eq_of_beq hc]⟩
      · rw [if_neg hc] at h
        cases h

theorem matchCI_of_image : ∀ (w z : Str),
    matchCI (w.map pyLower) (w ++ z) = some z := by
  intro w
  induction w with
  | nil => intro z; rfl
  | cons c w' ih =>
    intro z
    rw [List.map_cons, List.cons_append, matchCI,
      if_pos (beq_self_eq_true (pyLower c))]
    exact ih z

theorem lineMatch_eq_tryHead (key l : Str) :
    lineMatch key l = (tryHead key l).map Prod.fst := by
  unfold lineMatch tryHead
  cases hm : matchCI key (l.dropWhile pyIsSpace) with
  | none => rfl
  | some s2 =>
    cases hd : s2.dropWhile pyIsSpace with
    | nil => simp only [hd]; rfl
    | cons c s4 =>
      simp only [hd]
      by_cases hc : (c == ':') = true
      · rw [if_pos hc, if_pos hc]
        rfl
      · rw [if_neg hc, if_neg hc]
        rfl

theorem lineRewrite_nil (key rep : Str) (hk : key ≠ []) :
    lineRewrite key rep [] = [] := by
  cases key with
  | nil => exact absurd rfl hk
  | cons kc ks => rfl

theorem pySplitNL_ne_nil : ∀ s : Str, pySplitNL s ≠ [] := by
  intro s
  cases s with
  | nil => exact fun h => List.noConfusion h
  | cons c cs =>
    rw [pySplitNL]
    by_cases hc : (c == '\n') = true
    · rw [if_pos hc]
      exact fun h => List.noConfusion h
    · rw [if_neg hc]
      cases hps : pySplitNL cs with
      | nil => exact fun h => List.noConfusion h
      | cons h t => exact fun hh => List.noConfusion hh

theorem pySplitNL_shape : ∀ (s l : Str) (t : List Str),
    pySplitNL s = l :: t →
    '\n' ∉ l ∧ ((s = l ∧ t = []) ∨
      ∃ s2, s = l ++ '\n' :: s2 ∧ pySplitNL s2 = t) := by
  intro s
  induction s with
  | nil =>
    intro l t h
    rw [pySplitNL] at h
    cases h
    exact ⟨by simp, Or.inl ⟨rfl, rfl⟩⟩
  | cons c cs ih =>
    intro l t h
    rw [pySplitNL] at h
    by_cases hc : (c == '\n') = true
    · rw [if_pos hc] at h
      cases h
      refine ⟨by simp, Or.inr ⟨cs, ?_, rfl⟩⟩
      rw [List.nil_append, eq_of_beq hc]
    · rw [if_neg hc] at h
      cases hps : pySplitNL cs with
      | nil => exact absurd hps (pySplitNL_ne_nil cs)
      | cons l2 t2 =>
        simp only [hps] at h
        obtain ⟨hle, hte⟩ := List.cons.inj h
        subst hle
        subst hte
        obtain ⟨hnl2, hrest⟩ := ih l2 t2 hps
        have hcne : c ≠ '\n' := by
          intro he
          exact hc (by rw [he]; rfl)
        refine ⟨?_, ?_⟩
        · intro hmem
          rcases List.mem_cons.mp hmem with he | hm
          · exact hcne he.symm
          · exact hnl2 hm
        · rcases hrest with ⟨he, ht⟩ | ⟨s2, he, ht⟩
          · exact Or.inl ⟨by rw [he], ht⟩
          · exact Or.inr ⟨s2, by rw [he, List.cons_append], ht⟩

theorem pySplitNL_append_nonl : ∀ (a b : Str), '\n' ∉ a →
    ∀ h t, pySplitNL b = h :: t → pySplitNL (a ++ b) = (a ++ h) :: t := by
  intro a
  induction a with
  | nil =>
    intro b _ h t hb
    simpa using hb
  | cons c a' ih =>
    intro b hna h t hb
    have hcne : (c == '\n') = false := by
      cases hcc : c == '\n' with
      | false => rfl
      | true =>
        exact absurd (by rw [eq_of_beq hcc]; exact List.mem_cons_self _ _)
          hna
    have hcp : ¬((c == '\n') = true) := by
      rw [hcne]
      exact Bool.false_ne_true
    rw [List.cons_append, pySplitNL, if_neg hcp]
    have hr := ih b (fun hm => hna (List.mem_cons_of_mem c hm)) h t hb
    simp only [hr]
    rw [List.cons_append]

theorem joinNL_cons_append (a h : Str) (t : List Str) :
    joinNL ((a ++ h) :: t) = a ++ joinNL (h :: t) := by
  cases t with
  | nil => rfl
  | cons x xs =>
    show (a ++ h) ++ '\n' :: joinNL (x :: xs) =
      a ++ (h ++ '\n' :: joinNL (x :: xs))
    rw [List.append_assoc]

theorem lineMatch_some_tryHead (key l z r : Str) (hk : key ≠ [])
    (h : lineMatch key l = some r)
    (hn : tryHead key (l ++ '\n' :: z) = none) : False := by
  unfold lineMatch at h
  cases hm : matchCI key (l.dropWhile pyIsSpace) with
  | none =>
    rw [hm] at h
    cases h
  | some s2 =>
    simp only [hm] at h
    cases hd : s2.dropWhile pyIsSpace with
    | nil =>
      simp only [hd] at h
      exact Option.noConfusion h
    | cons c s4 =>
      simp only [hd] at h
      by_cases hc : (c == ':') = true
      · have hlne : l.dropWhile pyIsSpace ≠ [] := by
          intro hx
          rw [hx] at hm
          cases key with
          | nil => exact hk rfl
          | cons k0 ks => cases hm
        have h1 : (l ++ '\n' :: z).dropWhile pyIsSpace =
            l.dropWhile pyIsSpace ++ '\n' :: z :=
          dropWhile_append_of_ne_nil pyIsSpace l ('\n' :: z) hlne
        have h2 : matchCI key (l.dropWhile pyIsSpace ++ '\n' :: z) =
            some (s2 ++ '\n' :: z) := matchCI_append key _ _ s2 hm
        have h3 : (s2 ++ '\n' :: z).dropWhile pyIsSpace =
            c :: (s4 ++ '\n' :: z) := by
          rw [dropWhile_append_of_ne_nil pyIsSpace s2 _
            (by rw [hd]; exact fun hh => List.noConfusion hh), hd,
            List.cons_append]
        unfold tryHead at hn
        simp only [h1, h2, h3, if_pos hc] at hn
        exact Option.noConfusion hn
      · rw [if_neg hc] at h
        cases h

theorem tryHead_some_line (key : Str) (hk : key ≠ [])
    (hkh : ∀ c ∈ key.head?, pyIsSpace c = false)
    (s rest : Str) (nl : Bool)
    (h : tryHead key s = some (rest, nl))
    (hspan : ((s.take (s.length - rest.length)).all
        (fun d => !(d == '\n'))) = true) :
    nl = false ∧
    ∀ h0 t0, pySplitNL rest = h0 :: t0 →
      pySplitNL s = (s.take (s.length - rest.length) ++ h0) :: t0 ∧
      lineMatch key (s.take (s.length - rest.length) ++ h0) = some h0 := by
  obtain ⟨s2, s4, hm, hd, hr, hnl⟩ := tryHead_some_elim key s rest nl h
  obtain ⟨w, hw1, hw2⟩ := matchCI_decomp key _ s2 hm
  have hsA : s = s.takeWhile pyIsSpace ++ s.dropWhile pyIsSpace :=
    (List.takeWhile_append_dropWhile pyIsSpace s).symm
  have hsB : s2 = s2.takeWhile pyIsSpace ++ ':' :: s4 := by
    have hh := (List.takeWhile_append_dropWhile pyIsSpace s2).symm
    rw [hd] at hh
    exact hh
  have hsC : s4 = s4.takeWhile pyIsSpace ++ rest := by
    have hh := (List.takeWhile_append_dropWhile pyIsSpace s4).symm
    rw [← hr] at hh
    exact hh
  have hs : s = s.takeWhile pyIsSpace ++ (w ++ (s2.takeWhile pyIsSpace ++
      ':' :: (s4.takeWhile pyIsSpace ++ rest))) := by
    calc s = s.takeWhile pyIsSpace ++ s.dropWhile pyIsSpace := hsA
    _ = s.takeWhile pyIsSpace ++ (w ++ s2) := by rw [hw1]
    _ = s.takeWhile pyIsSpace ++
        (w ++ (s2.takeWhile pyIsSpace ++ ':' :: s4)) := by
        conv_lhs => rw [hsB]
    _ = s.takeWhile pyIsSpace ++ (w ++ (s2.takeWhile pyIsSpace ++
        ':' :: (s4.takeWhile pyIsSpace ++ rest))) := by
        conv_lhs => rw [hsC]
  have hs2 : s = (s.takeWhile pyIsSpace ++ (w ++ (s2.takeWhile pyIsSpace ++
      ':' :: s4.takeWhile pyIsSpace))) ++ rest := by
    conv_lhs => rw [hs]
    simp [List.append_assoc, List.cons_append]
  have hlen : (s.takeWhile pyIsSpace ++ (w ++ (s2.takeWhile pyIsSpace ++
      ':' :: s4.takeWhile pyIsSpace))).length = s.length - rest.length := by
    have hl := congrArg List.length hs2
    simp only [List.length_append, List.length_cons] at hl ⊢
    omega
  have htake : s.take (s.length - rest.length) =
      s.takeWhile pyIsSpace ++ (w ++ (s2.takeWhile pyIsSpace ++
        ':' :: s4.takeWhile pyIsSpace)) := by
    have ht : ((s.takeWhile pyIsSpace ++ (w ++ (s2.takeWhile pyIsSpace ++
        ':' :: s4.takeWhile pyIsSpace))) ++ rest).take
          (s.length - rest.length) =
        s.takeWhile pyIsSpace ++ (w ++ (s2.takeWhile pyIsSpace ++
          ':' :: s4.takeWhile pyIsSpace)) := List.take_left' hlen
    rw [← hs2] at ht
    exact ht
  rw [htake] at hspan
  have hspanmem : ∀ d ∈ (s.takeWhile pyIsSpace ++ (w ++ (s2.takeWhile
      pyIsSpace ++ ':' :: s4.takeWhile pyIsSpace))), d ≠ '\n' := by
    intro d hdm
    simpa using List.all_eq_true.mp hspan d hdm
  have hAws : ∀ d ∈ s.takeWhile pyIsSpace, pyIsSpace d = true :=
    fun _ hd0 => List.mem_takeWhile_imp hd0
  have hBws : ∀ d ∈ s2.takeWhile pyIsSpace, pyIsSpace d = true :=
    fun _ hd0 => List.mem_takeWhile_imp hd0
  have hCws : ∀ d ∈ s4.takeWhile pyIsSpace, pyIsSpace d = true :=
    fun _ hd0 => List.mem_takeWhile_imp hd0
  have hCnl : ∀ d ∈ s4.takeWhile pyIsSpace, d ≠ '\n' := by
    intro d hd0
    refine hspanmem d ?_
    simp only [List.mem_append, List.mem_cons]
    right; right; right; right
    exact hd0
  have hrh : ∀ d ∈ rest.head?, pyIsSpace d = false := by
    rw [hr]
    exact dropWhile_head_false pyIsSpace s4
  have hnlf : nl = false := by
    rw [hnl]
    unfold wsEndsNL
    cases hCl : (s4.takeWhile pyIsSpace).getLast? with
    | none => rfl
    | some x =>
      have hmemx := mem_of_getLast? hCl
      have hxne := hCnl x hmemx
      have hxf : (x == '\n') = false := by
        cases hxx : x == '\n' with
        | false => rfl
        | true => exact absurd (eq_of_beq hxx) hxne
      exact hxf
  refine ⟨hnlf, ?_⟩
  intro h0 t0 hrsplit
  have hsplitS : pySplitNL s = ((s.takeWhile pyIsSpace ++ (w ++
      (s2.takeWhile pyIsSpace ++ ':' :: s4.takeWhile pyIsSpace))) ++ h0)
        :: t0 := by
    conv_lhs => rw [hs2]
    exact pySplitNL_append_nonl _ rest
      (fun hm2 => hspanmem '\n' hm2 rfl) h0 t0 hrsplit
  constructor
  · rw [htake]
    exact hsplitS
  · rw [htake]
    have hwne : w ≠ [] := by
      intro hx
      rw [hx] at hw2
      exact hk hw2.symm
    obtain ⟨wc, w', hwc⟩ : ∃ wc w', w = wc :: w' := by
      cases w with
      | nil => exact absurd rfl hwne
      | cons a b => exact ⟨a, b, rfl⟩
    have hwch : pyIsSpace wc = false := by
      have hkey : key = pyLower wc :: w'.map pyLower := by
        rw [← hw2, hwc, List.map_cons]
      have hh := hkh (pyLower wc) (by rw [hkey]; rfl)
      cases hws : pyIsSpace wc with
      | false => rfl
      | true =>
        rw [pyLower_ws wc hws, hws] at hh
        exact hh
    have hAdrop : (s.takeWhile pyIsSpace).dropWhile pyIsSpace = [] :=
      List.dropWhile_eq_nil_iff.mpr hAws
    have hBdrop : (s2.takeWhile pyIsSpace).dropWhile pyIsSpace = [] :=
      List.dropWhile_eq_nil_iff.mpr hBws
    have hCdrop : (s4.takeWhile pyIsSpace).dropWhile pyIsSpace = [] :=
      List.dropWhile_eq_nil_iff.mpr hCws
    have hh0 : h0.dropWhile pyIsSpace = h0 := by
      refine dropWhile_eq_self_of_head pyIsSpace h0 ?_
      intro d hd0
      obtain ⟨hnl0, hsh⟩ := pySplitNL_shape rest h0 t0 hrsplit
      rcases hsh with ⟨he, _⟩ | ⟨s5, he, _⟩
      · rw [← he] at hd0
        exact hrh d hd0
      · have hpre : h0 <+: rest := ⟨'\n' :: s5, he.symm⟩
        by_cases hne0 : h0 = []
        · rw [hne0] at hd0
          simp at hd0
        · rw [head?_of_front hpre hne0] at hd0
          exact hrh d hd0
    have e1 : ((s.takeWhile pyIsSpace ++ (w ++ (s2.takeWhile pyIsSpace ++
        ':' :: s4.takeWhile pyIsSpace))) ++ h0).dropWhile pyIsSpace =
        w ++ (s2.takeWhile pyIsSpace ++ ':' :: (s4.takeWhile pyIsSpace
          ++ h0)) := by
      simp only [List.append_assoc, List.cons_append]
      rw [dropWhile_append_of_nil pyIsSpace _ _ hAdrop, hwc,
        List.cons_append, List.dropWhile_cons, hwch,
        if_neg Bool.false_ne_true]
    have e2 : matchCI key (w ++ (s2.takeWhile pyIsSpace ++ ':' ::
        (s4.takeWhile pyIsSpace ++ h0))) = some (s2.takeWhile pyIsSpace ++
        ':' :: (s4.takeWhile pyIsSpace ++ h0)) := by
      conv_lhs => rw [← hw2]
      exact matchCI_of_image w _
    have e3 : (s2.takeWhile pyIsSpace ++ ':' :: (s4.takeWhile pyIsSpace ++
        h0)).dropWhile pyIsSpace =
        ':' :: (s4.takeWhile pyIsSpace ++ h0) := by
      rw [dropWhile_append_of_nil pyIsSpace _ _ hBdrop,
        List.dropWhile_cons, show pyIsSpace ':' = false from rfl,
        if_neg Bool.false_ne_true]
    have e4 : (s4.takeWhile pyIsSpace ++ h0).dropWhile pyIsSpace = h0 := by
      rw [dropWhile_append_of_nil pyIsSpace _ _ hCdrop, hh0]
    unfold lineMatch
    simp only [e1, e2, e3, e4,
      if_pos (show ((':' : Char) == ':') = true from rfl)]

theorem headKeys_head :
    ∀ kr ∈ headKeys, ∀ c ∈ (kr.1 : Str).head?, pyIsSpace c = false := by
  decide

theorem subHeadF_lines (key rep : Str) (hk : key ≠ [])
    (hkh : ∀ c ∈ key.head?, pyIsSpace c = false) :
    ∀ fuel (s : Str) (b : Bool) (l : Str) (t : List Str),
      s.length ≤ fuel → tameF key fuel b s = true → pySplitNL s = l :: t →
      (b = true →
        subHeadF key rep fuel b s =
          joinNL (lineRewrite key rep l :: t.map (lineRewrite key rep))) ∧
      (b = false →
        subHeadF key rep fuel b s =
          joinNL (l :: t.map (lineRewrite key rep))) := by
  intro fuel
  induction fuel with
  | zero =>
    intro s b l t hlen htame hsplit
    have hsnil : s = [] :=
      List.eq_nil_of_length_eq_zero (Nat.le_zero.mp hlen)
    subst hsnil
    rw [pySplitNL] at hsplit
    obtain ⟨hle, hte⟩ := List.cons.inj hsplit
    subst hle
    subst hte
    constructor
    · intro _
      rw [lineRewrite_nil key rep hk]
      rfl
    · intro _
      rfl
  | succ fuel ih =>
    intro s b l t hlen htame hsplit
    cases s with
    | nil =>
      rw [pySplitNL] at hsplit
      obtain ⟨hle, hte⟩ := List.cons.inj hsplit
      subst hle
      subst hte
      constructor
      · intro _
        rw [lineRewrite_nil key rep hk]
        rfl
      · intro _
        rfl
    | cons c cs =>
      have hcs : cs.length ≤ fuel := by
        simp only [List.length_cons] at hlen
        omega
      have hcopy : tameF key fuel (c == '\n') cs = true →
          c :: subHeadF key rep fuel (c == '\n') cs =
            joinNL (l :: t.map (lineRewrite key rep)) := by
        intro htr
        by_cases hcnl : c = '\n'
        · subst hcnl
          rw [pySplitNL,
            if_pos (show (('\n' : Char) == '\n') = true from rfl)]
            at hsplit
          obtain ⟨hle, hte⟩ := List.cons.inj hsplit
          obtain ⟨l2, t2, hsplit2⟩ : ∃ l2 t2, pySplitNL cs = l2 :: t2 := by
            cases hps : pySplitNL cs with
            | nil => exact absurd hps (pySplitNL_ne_nil cs)
            | cons a bb => exact ⟨a, bb, rfl⟩
          rw [← hle, ← hte, hsplit2]
          rw [show (('\n' : Char) == '\n') = true from rfl]
          rw [show (('\n' : Char) == '\n') = true from rfl] at htr
          rw [(ih cs true l2 t2 hcs htr hsplit2).1 rfl]
          rw [List.map_cons]
          rfl
        · have hcb : (c == '\n') = false := by
            cases hx : c == '\n' with
            | false => rfl
            | true => exact absurd (eq_of_beq hx) hcnl
          rw [pySplitNL, if_neg (by rw [hcb]; exact Bool.false_ne_true)]
            at hsplit
          obtain ⟨l2, t2, hsplit2⟩ : ∃ l2 t2, pySplitNL cs = l2 :: t2 := by
            cases hps : pySplitNL cs with
            | nil => exact absurd hps (pySplitNL_ne_nil cs)
            | cons a bb => exact ⟨a, bb, rfl⟩
          simp only [hsplit2] at hsplit
          obtain ⟨hle, hte⟩ := List.cons.inj hsplit
          rw [← hle, ← hte]
          rw [hcb] at htr ⊢
          rw [(ih cs false l2 t2 hcs htr hsplit2).2 rfl]
          rw [show (c :: l2 : Str) = [c] ++ l2 from rfl,
            joinNL_cons_append]
          rfl
      rw [subHeadF]
      rw [tameF] at htame
      constructor
      · intro hb
        subst hb
        rw [if_pos rfl] at htame ⊢
        cases ht : tryHead key (c :: cs) with
        | none =>
          simp only [ht] at htame
          show c :: subHeadF key rep fuel (c == '\n') cs =
            joinNL (lineRewrite key rep l ::
              t.map (lineRewrite key rep))
          obtain ⟨hnll, hsh⟩ := pySplitNL_shape (c :: cs) l t hsplit
          have hlm : lineMatch key l = none := by
            rcases hsh with ⟨he, _⟩ | ⟨s5, he, _⟩
            · rw [lineMatch_eq_tryHead, ← he, ht]
              rfl
            · cases hlm2 : lineMatch key l with
              | none => rfl
              | some r =>
                exfalso
                refine lineMatch_some_tryHead key l s5 r hk hlm2 ?_
                rw [← he]
                exact ht
          have hlr : lineRewrite key rep l = l := by
            unfold lineRewrite
            simp only [hlm]
          rw [hlr]
          exact hcopy htame
        | some pr =>
          obtain ⟨rest, nl⟩ := pr
          simp only [ht] at htame
          rw [Bool.and_eq_true] at htame
          obtain ⟨hspansafe, htr⟩ := htame
          have hrl : rest.length ≤ fuel := by
            have := tryHead_length key (c :: cs) rest nl hk ht
            simp only [List.length_cons] at this hlen
            omega
          obtain ⟨h0, t0, hrsplit⟩ : ∃ h0 t0, pySplitNL rest = h0 :: t0
              := by
            cases hps : pySplitNL rest with
            | nil => exact absurd hps (pySplitNL_ne_nil rest)
            | cons a bb => exact ⟨a, bb, rfl⟩
          obtain ⟨hnlf, hmain⟩ := tryHead_some_line key hk hkh (c :: cs)
            rest nl ht hspansafe
          obtain ⟨hSsplit, hlmS⟩ := hmain h0 t0 hrsplit
          rw [hsplit] at hSsplit
          obtain ⟨hle, hte⟩ := List.cons.inj hSsplit
          subst hnlf
          show rep ++ subHeadF key rep fuel false rest =
            joinNL (lineRewrite key rep l ::
              t.map (lineRewrite key rep))
          rw [(ih rest false h0 t0 hrl htr hrsplit).2 rfl]
          rw [hle, hte]
          have hlr : lineRewrite key rep ((c :: cs).take
              ((c :: cs).length - rest.length) ++ h0) = rep ++ h0 := by
            unfold lineRewrite
            simp only [hlmS]
          rw [hlr, joinNL_cons_append]
      · intro hb
        subst hb
        rw [if_neg Bool.false_ne_true] at htame ⊢
        exact hcopy htame

/-! ## Concrete collaborators used by witnesses and counterexamples -/

/-! ## C7: validation short-circuit -/

/-- C7: a `/supervisor` request whose `task` is absent (the handler then
sees the default empty string) or is a string that is blank after
trimming yields exactly `400` with body `error = "Missing task
parameter"`, with the database unchanged and no cache read, no cache
write and no external call; and this is the only early exit: for every
non-blank string task the handler proceeds to the cache lookup. -/
theorem c7_validation_short_circuit :
    (∀ hf llm web db (body : List (Str × JVal)) s,
       bodyGet body taskKey (JVal.str []) = JVal.str s → pyStrip s = [] →
       supervisor_agent hf llm web db body =
         ⟨.ok (400, .err missingTaskMsg), db, [], [], []⟩) ∧
    (∀ hf llm web db (body : List (Str × JVal)) s,
       bodyGet body taskKey (JVal.str []) = JVal.str s → pyStrip s ≠ [] →
       (supervisor_agent hf llm web db body).dbReads = [pyStrip s]) := by
  constructor
  · intro hf llm web db body s hb hs
    unfold supervisor_agent
    rw [hb]
    simp [pyStripJ, hs]
  · intro hf llm web db body s hb hs
    unfold supervisor_agent
    rw [hb]
    obtain ⟨c, cs, hcs⟩ := List.exists_cons_of_ne_nil hs
    simp only [pyStripJ, hcs, List.isEmpty_cons, Bool.false_eq_true, if_false]
    cases hg : get_from_db db (c :: cs) with
    | some stored => simp [← hcs]
    | none =>
      cases hw : fetch_web_results (web (c :: cs)) with
      | error e => simp [hg, hw, ← hcs]
      | ok w => simp [hg, hw, ← hcs]

/-- Witness for C7 at concrete inputs: a blank task is rejected with
400 and no processing; task `"x"` reaches the cache lookup. -/
theorem c7_validation_short_circuit_witness :
    supervisor_agent none llmErrC webErrC init_db
        [(taskKey, JVal.str (("  ").toList))] =
      ⟨.ok (400, .err missingTaskMsg), init_db, [], [], []⟩ ∧
    (supervisor_agent none llmErrC webErrC init_db
        [(taskKey, JVal.str (("x").toList))]).dbReads = [("x").toList] := by
  constructor
  · exact c7_validation_short_circuit.1 none llmErrC webErrC init_db _
      (("  ").toList) rfl (by decide)
  · have h := c7_validation_short_circuit.2 none llmErrC webErrC init_db
      [(taskKey, JVal.str (("x").toList))] (("x").toList) rfl (by decide)
    exact h.trans (by decide)

/-! ## C10: non-string task values -/

/-- C10: the 400 branch presupposes a string (or absent) `task`: when
the body's `task` value is a non-string JSON value (number, list,
null, boolean or object), the handler applies `.strip()` to it and the
request fails with an unhandled `AttributeError` — neither the 400
validation response nor a 200 result — before any cache read, cache
write or external call. -/
theorem c10_nonstring_task_raises :
    ∀ hf llm web db (body : List (Str × JVal)) v,
      bodyGet body taskKey (JVal.str []) = v → (∀ s, v ≠ JVal.str s) →
      ∃ m, supervisor_agent hf llm web db body =
        ⟨.error (.attributeError m), db, [], [], []⟩ := by
  intro hf llm web db body v hb hv
  unfold supervisor_agent
  rw [hb]
  cases v with
  | str s => exact absurd rfl (hv s)
  | null => exact ⟨_, rfl⟩
  | bool b => exact ⟨_, rfl⟩
  | num l => exact ⟨_, rfl⟩
  | arr a => exact ⟨_, rfl⟩
  | obj o => exact ⟨_, rfl⟩

/-- Witness for C10 at the concrete body `task = 5`. -/
theorem c10_nonstring_task_raises_witness :
    ∃ m, supervisor_agent none llmErrC webErrC init_db
        [(taskKey, JVal.num (("5").toList))] =
      ⟨.error (.attributeError m), init_db, [], [], []⟩ :=
  c10_nonstring_task_raises none llmErrC webErrC init_db _
    (JVal.num (("5").toList)) rfl (by intro s h; cases h)

/-! ## C8: the LLM client never raises and encodes failures in-band -/

/-- C8: `fetch_ai_response` is total (modelled as a function into
strings): with no configured `HF_TOKEN` (unset or empty, both falsy in
Python) it returns the string beginning `"AI Request failed: HF_TOKEN
is not set"` and attempts zero network calls; with a token, a transport
error `e` yields exactly `"AI Request failed: " ++ e` — so every
failure is a string with the `"AI Request failed: "` prefix. -/
theorem c8_ai_client_failures (tok : Option Str) (net : Str → Except Str Str)
    (prompt : Str) :
    ((tok = none ∨ tok = some []) →
       fetch_ai_response tok net prompt = (hfTokenMissingMsg, 0)) ∧
    (aiFailPrefix ++ ("HF_TOKEN is not set").toList) <+: hfTokenMissingMsg ∧
    (∀ t e, tok = some t → t ≠ [] → net prompt = .error e →
       fetch_ai_response tok net prompt = (aiFailPrefix ++ e, 1)) := by
  refine ⟨?_, ?_, ?_⟩
  · rintro (rfl | rfl) <;> rfl
  · decide
  · rintro t e rfl ht he
    obtain ⟨c, cs, rfl⟩ := List.exists_cons_of_ne_nil ht
    simp [fetch_ai_response, he]

/-- Witness for C8 at concrete inputs. -/
theorem c8_ai_client_failures_witness :
    fetch_ai_response none llmErrC [] = (hfTokenMissingMsg, 0) ∧
    fetch_ai_response (some (("t").toList)) llmErrC [] =
      (aiFailPrefix ++ ("e").toList, 1) := by
  refine ⟨(c8_ai_client_failures none llmErrC []).1 (Or.inl rfl), ?_⟩
  exact (c8_ai_client_failures (some (("t").toList)) llmErrC []).2.2
    (("t").toList) (("e").toList) rfl (by decide) rfl

/-! ## C9: the web search client -/

theorem itemsToResults_of_objs (items : List JVal)
    (h : items.all isObjB) :
    itemsToResults items = .ok (items.map itemToResult) := by
  induction items with
  | nil => rfl
  | cons item rest ih =>
    rw [List.all_cons, Bool.and_eq_true] at h
    cases item with
    | obj io =>
      simp only [itemsToResults, jGet, ih h.2, itemToResult, List.map_cons]
      cases ht : io.lookupLast (("title").toList) <;>
        cases hl : io.lookupLast (("link").toList) <;>
          cases hs : io.lookupLast (("snippet").toList) <;> rfl
    | null => simp [isObjB] at h
    | bool b => simp [isObjB] at h
    | num l => simp [isObjB] at h
    | str s => simp [isObjB] at h
    | arr a => simp [isObjB] at h

theorem JArr.take_toList_length (n : Nat) (a : JArr) :
    (JArr.take n a).toList.length ≤ n := by
  induction n generalizing a with
  | zero => cases a <;> simp [JArr.take, JArr.toList]
  | succ n ih =>
    cases a with
    | nil => simp [JArr.take, JArr.toList]
    | cons v rest =>
      simpa [JArr.take, JArr.toList] using ih rest

/-- C9 counterexample: the claim says `fetch_web_results` never raises,
but only `RequestException` is caught — a well-formed HTTP 200 response
whose JSON body is `{"organic_results": null}` passes the `in` check,
and slicing `null` raises an uncaught `TypeError`. -/
theorem c9_counterexample :
    fetch_web_results (.ok (.obj (.cons orKey .null .nil))) =
      .error (.typeError (("object is not subscriptable").toList)) := rfl

/-- C9 (amended): `fetch_web_results` never raises *provided the
provider response is well formed* (`organic_results`, when present, an
array whose first five entries are objects); any transport/HTTP/decoding
error or a response lacking `organic_results` yields the empty list,
and otherwise the first at-most-five entries are mapped to
title/link/snippet with the literal defaults `"No Title"` / `"No Link"`
/ `"No Description Available"` for missing keys — 0 to 5 entries. -/
theorem c9_web_client_contract :
    (∀ e, fetch_web_results (.error e) = .ok []) ∧
    (∀ o : JObj, o.hasKey orKey = false →
       fetch_web_results (.ok (.obj o)) = .ok []) ∧
    (∀ (o : JObj) (items : JArr),
       o.lookupLast orKey = some (.arr items) →
       ((JArr.take 5 items).toList).all isObjB →
       fetch_web_results (.ok (.obj o)) =
         .ok (((JArr.take 5 items).toList).map itemToResult) ∧
       (((JArr.take 5 items).toList).map itemToResult).length ≤ 5) := by
  refine ⟨fun e => rfl, ?_, ?_⟩
  · intro o h
    simp [fetch_web_results, jContains, h]
  · intro o items hlk hobj
    have hk : o.hasKey orKey = true := by
      simp [JObj.hasKey, hlk]
    constructor
    · simp only [fetch_web_results, jContains, hk, jGet, hlk, jSlice5Iter]
      exact itemsToResults_of_objs _ hobj
    · simpa using JArr.take_toList_length 5 items

/-- Witness for C9 at concrete inputs: a transport error, a response
without the results field, and a response with one object entry lacking
`link`/`snippet`. -/
theorem c9_web_client_contract_witness :
    fetch_web_results (.error (("e").toList)) = .ok [] ∧
    fetch_web_results (.ok (.obj .nil)) = .ok [] ∧
    fetch_web_results (.ok (.obj (.cons orKey
        (.arr (.cons (.obj (.cons (("title").toList)
          (.str (("T").toList)) .nil)) .nil)) .nil))) =
      .ok [⟨.str (("T").toList), noLink, noSnippet⟩] := by
  refine ⟨c9_web_client_contract.1 _, c9_web_client_contract.2.1 _ rfl, ?_⟩
  have h := (c9_web_client_contract.2.2 (.cons orKey
      (.arr (.cons (.obj (.cons (("title").toList)
        (.str (("T").toList)) .nil)) .nil)) .nil)
      (.cons (.obj (.cons (("title").toList) (.str (("T").toList)) .nil)) .nil)
      rfl (by decide)).1
  exact h.trans (by rfl)

/-! ## C3: cache keying -/

theorem bodyGet_single (v d : JVal) :
    bodyGet [(taskKey, v)] taskKey d = v := rfl

/-- C3 counterexample: the claim says task strings differing only in
surrounding whitespace address distinct cache records; but the handler
strips the task before lookup and storage, so after a run with task
`"x"`, a request with task `" x "` is served from the same record
(zero LLM and zero search calls, identical response body). -/
theorem c3_counterexample :
    (supervisor_agent none llmErrC webErrC
        (supervisor_agent none llmErrC webErrC init_db
          [(taskKey, JVal.str (("x").toList))]).db
        [(taskKey, JVal.str ((" x ").toList))]).llmCalls = [] ∧
    (supervisor_agent none llmErrC webErrC
        (supervisor_agent none llmErrC webErrC init_db
          [(taskKey, JVal.str (("x").toList))]).db
        [(taskKey, JVal.str ((" x ").toList))]).webCalls = [] ∧
    (supervisor_agent none llmErrC webErrC
        (supervisor_agent none llmErrC webErrC init_db
          [(taskKey, JVal.str (("x").toList))]).db
        [(taskKey, JVal.str ((" x ").toList))]).outcome =
      (supervisor_agent none llmErrC webErrC init_db
        [(taskKey, JVal.str (("x").toList))]).outcome ∧
    (supervisor_agent none llmErrC webErrC
        (supervisor_agent none llmErrC webErrC init_db
          [(taskKey, JVal.str (("x").toList))]).db
        [(taskKey, JVal.str ((" x ").toList))]).db =
      (supervisor_agent none llmErrC webErrC init_db
        [(taskKey, JVal.str (("x").toList))]).db :=
  ⟨rfl, rfl, rfl, rfl⟩

/-- C3 (amended): the cache is keyed by the *trimmed* task text: the
handler strips surrounding whitespace before both lookup and storage,
so two request bodies whose tasks agree after trimming behave
identically (same record); lookup itself is exact-match on the stored
key — case- and interior-whitespace-sensitive. -/
theorem c3_trimmed_exact_key :
    (∀ hf llm web db (body1 body2 : List (Str × JVal)) v1 v2,
       bodyGet body1 taskKey (JVal.str []) = JVal.str v1 →
       bodyGet body2 taskKey (JVal.str []) = JVal.str v2 →
       pyStrip v1 = pyStrip v2 →
       supervisor_agent hf llm web db body1 =
         supervisor_agent hf llm web db body2) ∧
    (∀ db t r, get_from_db db t = some r →
       ∃ row ∈ db.rows, row.task = t ∧ r.task = row.task) ∧
    (∀ db t, (∃ row ∈ db.rows, row.task = t) →
       ∃ r, get_from_db db t = some r) := by
  refine ⟨?_, ?_, ?_⟩
  · intro hf llm web db body1 body2 v1 v2 h1 h2 h
    unfold supervisor_agent
    rw [h1, h2]
    have e1 : pyStripJ (JVal.str v1) = .ok (pyStrip v1) := rfl
    have e2 : pyStripJ (JVal.str v2) = .ok (pyStrip v2) := rfl
    rw [e1, e2, h]
  · intro db t r hr
    unfold get_from_db at hr
    cases hf : db.rows.find? (fun row => row.task == t) with
    | none => rw [hf] at hr; cases hr
    | some row =>
      rw [hf] at hr
      have hmem := List.mem_of_find?_eq_some hf
      have hp := List.find?_some hf
      cases hr
      exact ⟨row, hmem, by simpa using hp, rfl⟩
  · intro db t hex
    obtain ⟨row, hmem, htask⟩ := hex
    have hfs : (db.rows.find? (fun row => row.task == t)).isSome := by
      rw [List.find?_isSome]
      exact ⟨row, hmem, by simp [htask]⟩
    unfold get_from_db
    cases hf : db.rows.find? (fun row => row.task == t) with
    | none =>
      rw [hf] at hfs
      exact Bool.noConfusion hfs
    | some row2 => exact ⟨_, rfl⟩

/-- Witness for C3 (amended) at concrete inputs: `" x "` and `"x"`
produce the same run, and a concrete cache hit is exact-match. -/
theorem c3_trimmed_exact_key_witness :
    supervisor_agent none llmErrC webErrC init_db
        [(taskKey, JVal.str ((" x ").toList))] =
      supervisor_agent none llmErrC webErrC init_db
        [(taskKey, JVal.str (("x").toList))] ∧
    (∃ r, get_from_db c3db (("x").toList) = some r ∧
      ∃ row ∈ c3db.rows, row.task = ("x").toList ∧ r.task = row.task) ∧
    (∃ r, get_from_db c3db (("x").toList) = some r) := by
  refine ⟨c3_trimmed_exact_key.1 none llmErrC webErrC init_db _ _ _ _
      rfl rfl (by decide),
    ⟨_, rfl, c3_trimmed_exact_key.2.1 c3db (("x").toList) _ rfl⟩,
    c3_trimmed_exact_key.2.2 c3db (("x").toList) (by decide)⟩

/-! ## C2: upsert semantics and task uniqueness -/

theorem updRow_task (task hyp : Str) (web : List RawResult)
    (ana rea eva summ conc : Str) (r : DbRow) :
    (updRow task hyp web ana rea eva summ conc r).task = r.task := by
  unfold updRow
  split <;> rfl

theorem store_in_db_tasks (db : Db) (task hyp : Str) (web : List RawResult)
    (ana rea eva summ conc : Str) :
    (store_in_db db task hyp web ana rea eva summ conc).rows.map DbRow.task =
      if db.rows.any (fun r => r.task == task) then db.rows.map DbRow.task
      else db.rows.map DbRow.task ++ [task] := by
  unfold store_in_db
  split
  · simp only [List.map_map]
    apply List.map_congr_left
    intro r _
    exact updRow_task task hyp web ana rea eva summ conc r
  · simp

theorem store_in_db_uniq (db : Db) (task hyp : Str) (web : List RawResult)
    (ana rea eva summ conc : Str) (h : db.uniq) :
    (store_in_db db task hyp web ana rea eva summ conc).uniq := by
  unfold Db.uniq at h ⊢
  rw [store_in_db_tasks]
  split
  · exact h
  · rename_i hany
    rw [List.nodup_append]
    refine ⟨h, List.nodup_singleton task, ?_⟩
    intro a ha hb
    rw [List.mem_singleton] at hb
    subst hb
    obtain ⟨r, hr, hrt⟩ := List.mem_map.mp ha
    have hbeq : (r.task == a) = true := by rw [hrt]; exact beq_self_eq_true a
    exact hany (List.any_eq_true.mpr ⟨r, hr, hbeq⟩)

theorem filter_map_updRow (t : Str) (rows : List DbRow) (task hyp : Str)
    (web : List RawResult) (ana rea eva summ conc : Str) :
    ((rows.map (updRow task hyp web ana rea eva summ conc)).filter
        (fun r => r.task == t)).length =
      (rows.filter (fun r => r.task == t)).length := by
  induction rows with
  | nil => rfl
  | cons x xs ih =>
    have hx : ((updRow task hyp web ana rea eva summ conc x).task == t) =
        (x.task == t) := by rw [updRow_task]
    simp only [List.map_cons, List.filter_cons, hx]
    split <;> simp [ih]

theorem count_le_one_of_uniq (rows : List DbRow) (t : Str)
    (h : (rows.map DbRow.task).Nodup) :
    (rows.filter (fun r => r.task == t)).length ≤ 1 := by
  induction rows with
  | nil => simp
  | cons x xs ih =>
    rw [List.map_cons, List.nodup_cons] at h
    rw [List.filter_cons]
    split
    · rename_i hxt
      have hxe : x.task = t := by simpa using hxt
      have hnil : xs.filter (fun r => r.task == t) = [] := by
        rw [List.eq_nil_iff_forall_not_mem]
        intro r hr
        rw [List.mem_filter] at hr
        have hre : r.task = t := by simpa using hr.2
        exact h.1 (List.mem_map.mpr ⟨r, hr.1, hre.trans hxe.symm⟩)
      simp [hnil]
    · exact ih h.2

theorem count_pos_of_any (rows : List DbRow) (t : Str)
    (h : rows.any (fun r => r.task == t) = true) :
    1 ≤ (rows.filter (fun r => r.task == t)).length := by
  obtain ⟨r, hr, hrt⟩ := List.any_eq_true.mp h
  have hmem : r ∈ rows.filter (fun r => r.task == t) :=
    List.mem_filter.mpr ⟨hr, hrt⟩
  exact List.length_pos.mpr (List.ne_nil_of_mem hmem)

theorem filter_nil_of_not_any (rows : List DbRow) (t : Str)
    (h : ¬ rows.any (fun r => r.task == t) = true) :
    rows.filter (fun r => r.task == t) = [] := by
  rw [List.eq_nil_iff_forall_not_mem]
  intro r hr
  rw [List.mem_filter] at hr
  exact h (List.any_eq_true.mpr ⟨r, hr.1, hr.2⟩)

theorem store_in_db_count (db : Db) (task hyp : Str) (web : List RawResult)
    (ana rea eva summ conc : Str) (h : db.uniq) :
    countTask (store_in_db db task hyp web ana rea eva summ conc) task = 1 := by
  unfold countTask store_in_db
  split
  · rename_i hany
    simp only
    rw [filter_map_updRow]
    have hle := count_le_one_of_uniq db.rows task h
    have hge := count_pos_of_any db.rows task hany
    omega
  · rename_i hany
    simp only
    rw [List.filter_append, filter_nil_of_not_any db.rows task hany]
    simp

theorem store_in_db_values (db : Db) (task hyp : Str) (web : List RawResult)
    (ana rea eva summ conc : Str) :
    ∀ r ∈ (store_in_db db task hyp web ana rea eva summ conc).rows,
      r.task = task →
      r.hypotheses = hyp ∧ r.web_research = dumpsV (webToJ web) ∧
      r.analysis = ana ∧ r.reasoning = rea ∧ r.evaluation = eva ∧
      r.summary = summ ∧ r.conclusion = conc := by
  intro r hr hrt
  unfold store_in_db at hr
  by_cases hany : db.rows.any (fun x => x.task == task) = true
  · rw [if_pos hany] at hr
    obtain ⟨x, hx, hxr⟩ := List.mem_map.mp hr
    unfold updRow at hxr
    by_cases hxt : (x.task == task) = true
    · rw [if_pos hxt] at hxr
      subst hxr
      exact ⟨rfl, rfl, rfl, rfl, rfl, rfl, rfl⟩
    · rw [if_neg hxt] at hxr
      subst hxr
      exact absurd (by rw [hrt]; exact beq_self_eq_true task) hxt
  · rw [if_neg hany] at hr
    simp only [List.mem_append, List.mem_singleton] at hr
    cases hr with
    | inl hmem =>
      have hbeq : (r.task == task) = true := by
        rw [hrt]; exact beq_self_eq_true task
      exact absurd (List.any_eq_true.mpr ⟨r, hmem, hbeq⟩) hany
    | inr hnew =>
      subst hnew
      exact ⟨rfl, rfl, rfl, rfl, rfl, rfl, rfl⟩

/-- C2: `store_in_db` is an upsert keyed on `task`: on a database
satisfying the uniqueness constraint it leaves exactly one row for the
written task (insert when absent, replacement of all seven non-key
fields when present); uniqueness holds in every reachable database
state; and two successive writes with the same task leave exactly one
row for it, holding the second write's seven field values. -/
theorem c2_upsert_exactly_one :
    (∀ db task hyp web ana rea eva summ conc, db.uniq →
       (store_in_db db task hyp web ana rea eva summ conc).uniq ∧
       countTask (store_in_db db task hyp web ana rea eva summ conc) task = 1) ∧
    (∀ db, Reachable db → db.uniq) ∧
    (∀ db task h1 w1 a1 r1 v1 s1 c1 h2 w2 a2 r2 v2 s2 c2, db.uniq →
       countTask (store_in_db (store_in_db db task h1 w1 a1 r1 v1 s1 c1)
         task h2 w2 a2 r2 v2 s2 c2) task = 1 ∧
       ∀ r ∈ (store_in_db (store_in_db db task h1 w1 a1 r1 v1 s1 c1)
                task h2 w2 a2 r2 v2 s2 c2).rows, r.task = task →
         r.hypotheses = h2 ∧ r.web_research = dumpsV (webToJ w2) ∧
         r.analysis = a2 ∧ r.reasoning = r2 ∧ r.evaluation = v2 ∧
         r.summary = s2 ∧ r.conclusion = c2) := by
  refine ⟨?_, ?_, ?_⟩
  · intro db task hyp web ana rea eva summ conc h
    exact ⟨store_in_db_uniq db task hyp web ana rea eva summ conc h,
           store_in_db_count db task hyp web ana rea eva summ conc h⟩
  · intro db h
    induction h with
    | init => exact List.nodup_nil
    | step db task hyp web ana rea eva summ conc _ ih =>
      exact store_in_db_uniq db task hyp web ana rea eva summ conc ih
  · intro db task h1 w1 a1 r1 v1 s1 c1 h2 w2 a2 r2 v2 s2 c2 h
    exact ⟨store_in_db_count _ task h2 w2 a2 r2 v2 s2 c2
             (store_in_db_uniq db task h1 w1 a1 r1 v1 s1 c1 h),
           store_in_db_values _ task h2 w2 a2 r2 v2 s2 c2⟩

/-- Witness for C2 at concrete inputs: two successive writes of task
`"x"` into the empty database. -/
theorem c2_upsert_exactly_one_witness :
    countTask (store_in_db (store_in_db init_db (("x").toList)
        (("h1").toList) [] (("a1").toList) (("r1").toList)
        (("v1").toList) (("s1").toList) (("c1").toList))
      (("x").toList) (("h2").toList) [] (("a2").toList) (("r2").toList)
      (("v2").toList) (("s2").toList) (("c2").toList)) (("x").toList) = 1 ∧
    Reachable init_db ∧ init_db.uniq := by
  refine ⟨?_, Reachable.init, c2_upsert_exactly_one.2.1 init_db Reachable.init⟩
  exact (c2_upsert_exactly_one.2.2 init_db (("x").toList)
    (("h1").toList) [] (("a1").toList) (("r1").toList) (("v1").toList)
    (("s1").toList) (("c1").toList) (("h2").toList) [] (("a2").toList)
    (("r2").toList) (("v2").toList) (("s2").toList) (("c2").toList)
    List.nodup_nil).1

/-! ## C6: the pipeline on a cache miss -/

/-- C6 counterexample: the claim says every validated cache-miss
request completes all stages and returns 200 *regardless of any LLM or
search failure*; but a search-provider 200 response whose JSON body is
well formed yet malformed for the code (`organic_results: null`)
raises an uncaught `TypeError`: the run aborts with no 200 response
(and no write — the database is unchanged). -/
theorem c6_counterexample :
    (supervisor_agent none llmErrC webBadC init_db
        [(taskKey, JVal.str (("t").toList))]).outcome =
      .error (.typeError (("object is not subscriptable").toList)) ∧
    (supervisor_agent none llmErrC webBadC init_db
        [(taskKey, JVal.str (("t").toList))]).db = init_db :=
  ⟨rfl, rfl⟩

/-- C6 (amended): on a validated cache miss, *provided the search step
does not raise* (its network/HTTP failures are absorbed into an empty
result list; only a malformed provider JSON body raises), the pipeline
runs all seven stages to completion — six LLM prompts are issued, in
order — returns 200 with the full formatted record, and performs
exactly one complete write of all seven derived fields; the database is
only ever modified by such a complete `store_in_db` write (so no
partial record is ever stored); and when the search step does raise,
the error propagates unhandled and the database is unchanged. -/
theorem c6_pipeline_completes :
    (∀ hf llm webnet db (body : List (Str × JVal)) s web,
       bodyGet body taskKey (JVal.str []) = JVal.str s →
       pyStrip s ≠ [] →
       get_from_db db (pyStrip s) = none →
       fetch_web_results (webnet (pyStrip s)) = .ok web →
       (supervisor_agent hf llm webnet db body).outcome =
         .ok (200, .ok (formatResp (pyStrip s)
           (runStages hf llm (pyStrip s) web).hyp web
           (runStages hf llm (pyStrip s) web).ana
           (runStages hf llm (pyStrip s) web).rea
           (runStages hf llm (pyStrip s) web).eva
           (runStages hf llm (pyStrip s) web).summ
           (runStages hf llm (pyStrip s) web).conc)) ∧
       (supervisor_agent hf llm webnet db body).db =
         store_in_db db (pyStrip s)
           (runStages hf llm (pyStrip s) web).hyp web
           (runStages hf llm (pyStrip s) web).ana
           (runStages hf llm (pyStrip s) web).rea
           (runStages hf llm (pyStrip s) web).eva
           (runStages hf llm (pyStrip s) web).summ
           (runStages hf llm (pyStrip s) web).conc ∧
       (supervisor_agent hf llm webnet db body).llmCalls =
         (runStages hf llm (pyStrip s) web).prompts ∧
       (runStages hf llm (pyStrip s) web).prompts.length = 6) ∧
    (∀ hf llm webnet db (body : List (Str × JVal)),
       (supervisor_agent hf llm webnet db body).db = db ∨
       ∃ task hyp web ana rea eva summ conc,
         (supervisor_agent hf llm webnet db body).db =
           store_in_db db task hyp web ana rea eva summ conc) ∧
    (∀ hf llm webnet db (body : List (Str × JVal)) s e,
       bodyGet body taskKey (JVal.str []) = JVal.str s →
       pyStrip s ≠ [] →
       get_from_db db (pyStrip s) = none →
       fetch_web_results (webnet (pyStrip s)) = .error e →
       (supervisor_agent hf llm webnet db body).outcome = .error e ∧
       (supervisor_agent hf llm webnet db body).db = db) := by
  refine ⟨?_, ?_, ?_⟩
  · intro hf llm webnet db body s web hb hne hget hweb
    rw [supervisor_miss hf llm webnet db body s web hb hne hget hweb]
    exact ⟨rfl, rfl, rfl, rfl⟩
  · intro hf llm webnet db body
    unfold supervisor_agent
    split
    · exact Or.inl rfl
    · split
      · exact Or.inl rfl
      · dsimp only
        split
        · exact Or.inl rfl
        · split
          · exact Or.inl rfl
          · exact Or.inr ⟨_, _, _, _, _, _, _, _, rfl⟩
  · intro hf llm webnet db body s e hb hne hget hweb
    rw [supervisor_webraise hf llm webnet db body s e hb hne hget hweb]
    exact ⟨rfl, rfl⟩

/-- Witness for C6 (amended) at concrete inputs: a miss with an
absorbed search outcome completes with 200 and one full write; a
malformed provider body propagates the error with no write. -/
theorem c6_pipeline_completes_witness :
    (supervisor_agent none llmErrC webEmptyC init_db
        [(taskKey, JVal.str (("t").toList))]).outcome =
      .ok (200, .ok (formatResp (("t").toList)
        (runStages none llmErrC (("t").toList) []).hyp []
        (runStages none llmErrC (("t").toList) []).ana
        (runStages none llmErrC (("t").toList) []).rea
        (runStages none llmErrC (("t").toList) []).eva
        (runStages none llmErrC (("t").toList) []).summ
        (runStages none llmErrC (("t").toList) []).conc)) ∧
    (supervisor_agent none llmErrC webErrC init_db
        [(taskKey, JVal.str (("t").toList))]).db =
      store_in_db init_db (("t").toList)
        (runStages none llmErrC (("t").toList) []).hyp []
        (runStages none llmErrC (("t").toList) []).ana
        (runStages none llmErrC (("t").toList) []).rea
        (runStages none llmErrC (("t").toList) []).eva
        (runStages none llmErrC (("t").toList) []).summ
        (runStages none llmErrC (("t").toList) []).conc := by
  constructor
  · exact (c6_pipeline_completes.1 none llmErrC webEmptyC init_db
      [(taskKey, JVal.str (("t").toList))] (("t").toList) []
      rfl (by decide) rfl rfl).1
  · exact (c6_pipeline_completes.1 none llmErrC webErrC init_db
      [(taskKey, JVal.str (("t").toList))] (("t").toList) []
      rfl (by decide) rfl rfl).2.1

/-! ## C1: cache hits -/

/-- C1: on a cache hit, `/supervisor` returns 200 with exactly the
stored record as formatted by `get_from_db` (each text field split at
newlines, `web_research` deserialized from its stored JSON), leaves the
database unchanged, and performs zero LLM and zero web-search calls;
and a first (completing) pipeline call followed by a second identical
call serves the second entirely from cache: no external calls, no
write, and a response byte-identical to the first call's. -/
theorem c1_hit_serves_stored :
    (∀ hf llm webnet db (body : List (Str × JVal)) s stored,
       bodyGet body taskKey (JVal.str []) = JVal.str s →
       pyStrip s ≠ [] →
       get_from_db db (pyStrip s) = some stored →
       supervisor_agent hf llm webnet db body =
         ⟨.ok (200, .ok stored), db, [pyStrip s], [], []⟩) ∧
    (∀ hf llm webnet db (body : List (Str × JVal)) s web,
       bodyGet body taskKey (JVal.str []) = JVal.str s →
       pyStrip s ≠ [] →
       get_from_db db (pyStrip s) = none →
       fetch_web_results (webnet (pyStrip s)) = .ok web →
       webWf web = true →
       (supervisor_agent hf llm webnet
          (supervisor_agent hf llm webnet db body).db body).outcome =
         (supervisor_agent hf llm webnet db body).outcome ∧
       (supervisor_agent hf llm webnet
          (supervisor_agent hf llm webnet db body).db body).llmCalls = [] ∧
       (supervisor_agent hf llm webnet
          (supervisor_agent hf llm webnet db body).db body).webCalls = [] ∧
       (supervisor_agent hf llm webnet
          (supervisor_agent hf llm webnet db body).db body).db =
         (supervisor_agent hf llm webnet db body).db) := by
  constructor
  · exact supervisor_hit
  · intro hf llm webnet db body s web hb hne hget hweb hwf
    rw [supervisor_miss hf llm webnet db body s web hb hne hget hweb]
    rw [supervisor_hit hf llm webnet _ body s
      (formatResp (pyStrip s)
        (runStages hf llm (pyStrip s) web).hyp web
        (runStages hf llm (pyStrip s) web).ana
        (runStages hf llm (pyStrip s) web).rea
        (runStages hf llm (pyStrip s) web).eva
        (runStages hf llm (pyStrip s) web).summ
        (runStages hf llm (pyStrip s) web).conc) hb hne
      (get_after_store db (pyStrip s)
        (runStages hf llm (pyStrip s) web).hyp web
        (runStages hf llm (pyStrip s) web).ana
        (runStages hf llm (pyStrip s) web).rea
        (runStages hf llm (pyStrip s) web).eva
        (runStages hf llm (pyStrip s) web).summ
        (runStages hf llm (pyStrip s) web).conc hget hwf)]
    exact ⟨rfl, rfl, rfl, rfl⟩

/-- Witness for C1 at concrete inputs: a hit on a one-row cache, and a
first-then-second identical call with the search transport failing
(absorbed into an empty result list). -/
theorem c1_hit_serves_stored_witness :
    (∃ stored, get_from_db c1db (("x").toList) = some stored ∧
       supervisor_agent none llmErrC webErrC c1db
           [(taskKey, JVal.str (("x").toList))] =
         ⟨.ok (200, .ok stored), c1db, [("x").toList], [], []⟩) ∧
    (supervisor_agent none llmErrC webErrC
        (supervisor_agent none llmErrC webErrC init_db
          [(taskKey, JVal.str (("t").toList))]).db
        [(taskKey, JVal.str (("t").toList))]).llmCalls = [] ∧
    (supervisor_agent none llmErrC webErrC
        (supervisor_agent none llmErrC webErrC init_db
          [(taskKey, JVal.str (("t").toList))]).db
        [(taskKey, JVal.str (("t").toList))]).outcome =
      (supervisor_agent none llmErrC webErrC init_db
        [(taskKey, JVal.str (("t").toList))]).outcome := by
  refine ⟨⟨_, rfl, ?_⟩, ?_, ?_⟩
  · exact c1_hit_serves_stored.1 none llmErrC webErrC c1db
      [(taskKey, JVal.str (("x").toList))] (("x").toList) _
      rfl (by decide) rfl
  · exact (c1_hit_serves_stored.2 none llmErrC webErrC init_db
      [(taskKey, JVal.str (("t").toList))] (("t").toList) []
      rfl (by decide) rfl rfl rfl).2.1
  · exact (c1_hit_serves_stored.2 none llmErrC webErrC init_db
      [(taskKey, JVal.str (("t").toList))] (("t").toList) []
      rfl (by decide) rfl rfl rfl).1

/-- C4 counterexample: `clean_headings` is not idempotent.  In
"Multiple Persp*ectives:" the asterisk splits the removal phrase, so no
removal pattern matches on the first pass; the unconditional asterisk
strip then recreates "Multiple Perspectives:", which the second pass
removes entirely. -/
theorem c4_counterexample :
    clean_headings (clean_headings (("Multiple Persp*ectives:").toList)) ≠
      clean_headings (("Multiple Persp*ectives:").toList) := by
  decide

/-- C4 (amended): the normalizer is idempotent on every input whose
normalized output is a fixed point of the plain phrase-removal pass and
has every line-start heading match already in canonical replaced form
(both conditions hold of typical normalizer output; the counterexample
violates the first). -/
theorem c4_normalize_idempotent (x : Str)
    (h1 : subPhrase none (clean_headings x) = clean_headings x)
    (h2 : ∀ kr ∈ headKeys, canon kr.1 kr.2 (clean_headings x) = true) :
    clean_headings (clean_headings x) = clean_headings x :=
  clean_fix (clean_headings x) (noStar_clean x) (pyStrip_clean x) h1 h2

theorem c4_normalize_idempotent_witness :
    (subPhrase none (clean_headings (("summary: x").toList)) =
        clean_headings (("summary: x").toList) ∧
      (∀ kr ∈ headKeys,
        canon kr.1 kr.2 (clean_headings (("summary: x").toList)) = true)) ∧
    clean_headings (clean_headings (("summary: x").toList)) =
      clean_headings (("summary: x").toList) :=
  ⟨⟨by decide, by decide⟩,
    c4_normalize_idempotent (("summary: x").toList) (by decide) (by decide)⟩

/-- C5 counterexample: "summary:" stands at a line start of the input,
yet the output contains no "Summary:".  The earlier analysis rewrite's
trailing flexible whitespace absorbed the newline, so by the time the
summary pattern runs its occurrence is no longer at a line start. -/
theorem c5_counterexample :
    clean_headings (("analysis:\nsummary: x").toList) =
        ("Analysis: summary: x").toList ∧
    strContains (clean_headings (("analysis:\nsummary: x").toList))
        (("Summary:").toList) = false := by
  decide

/-- C5 (amended): each keyword's pass rewrites the line-start
occurrences of its heading pattern as evaluated on its own current
text.  Whenever no match's flexible whitespace crosses a line boundary
(`tame`), the pass acts exactly line-by-line: every line beginning,
after optional whitespace, with the keyword and a colon — case
insensitive, flexible whitespace around the colon — is rewritten to the
canonical capitalized form followed by the line remainder, and every
other line, in particular any mid-line keyword occurrence, is left
unmodified.  Without that condition a rewrite can absorb a newline and
destroy a later line start (see the counterexample). -/
theorem c5_heading_normalization :
    ∀ kr ∈ headKeys, ∀ s : Str, tame kr.1 s = true →
      subHead kr.1 kr.2 s = specHeading kr.1 kr.2 s := by
  intro kr hkr s htame
  have hk : kr.1 ≠ ([] : Str) := (headKeys_shape kr hkr).1
  have hkh := headKeys_head kr hkr
  obtain ⟨l, t, hsplit⟩ : ∃ l t, pySplitNL s = l :: t := by
    cases hps : pySplitNL s with
    | nil => exact absurd hps (pySplitNL_ne_nil s)
    | cons a bb => exact ⟨a, bb, rfl⟩
  have hh := (subHeadF_lines kr.1 kr.2 hk hkh s.length s true l t
    (le_refl _) htame hsplit).1 rfl
  show subHeadF kr.1 kr.2 s.length true s = specHeading kr.1 kr.2 s
  rw [hh]
  unfold specHeading
  rw [hsplit, List.map_cons]

theorem c5_heading_normalization_witness :
    ((("summary").toList, ("Summary: ").toList) ∈ headKeys ∧
      tame (("summary").toList)
        (("it\nsummary:   key point\nsee summary: mid").toList) = true) ∧
    subHead (("summary").toList) (("Summary: ").toList)
        (("it\nsummary:   key point\nsee summary: mid").toList) =
      specHeading (("summary").toList) (("Summary: ").toList)
        (("it\nsummary:   key point\nsee summary: mid").toList) ∧
    specHeading (("summary").toList) (("Summary: ").toList)
        (("it\nsummary:   key point\nsee summary: mid").toList) =
      ("it\nSummary: key point\nsee summary: mid").toList :=
  ⟨⟨by decide, by decide⟩,
    c5_heading_normalization
      ((("summary").toList, ("Summary: ").toList)) (by decide)
      (("it\nsummary:   key point\nsee summary: mid").toList) (by decide),
    by decide⟩

end SMind
